import Mathlib

/-!
Witness construction in `core/txbuilder/witness.go`.

A shallow embedding of the witness components of the transaction builder
(`DataWitness`, `SignatureWitness`), of the signing loop `Sign`, of the
deferred-predicate inference `buildSigProgram`, of `Materialize`, of the
JSON encoders and of the finalizer `materializeWitnesses`.

Conventions of the embedding

* Go slices are lists; a nil slice and an empty slice are both the empty list
  (the code only ever takes `len` of them, ranges over them or appends).
* A run-time panic (nil dereference, index out of range) is an explicit
  outcome: `none` in an `Option` result, `Res.panic` in a `Res` result.
* Mutation through a pointer receiver is explicit state passing: `Sign`
  returns the new component next to the returned error, and
  `materializeWitnesses` returns the new template.
* Code of the repository that lives outside `witness.go` (hashing, the
  Ed25519 check, the multisig parser, the program builder encodings, the
  constraint encoders, `Template.Hash`) is collected in the record `Env`
  and every definition takes it as a parameter.
-/

namespace Txbuilder

/-! ## Data model -/

abbrev Byte := Fin 256

abbrev Bytes := List Byte

/-- Annotation that `errors.Wrap` or `errors.WithDetailf` attaches to an error. -/
inductive Note
  | stack
  | parsingInputProgramScript
  | computingSignature (i : Nat)
  | missingTxInput (i pos : Nat)
  | witnessComponent (j i : Nat)
  deriving DecidableEq, Repr

/-- Error values. The first four are the package variables of `txbuilder`;
`parser` is an error value made by `vmutil`/`vm` (a package that cannot see
the variables of `txbuilder`); `annotated` is an error wrapped by the
`errors` package, which keeps the wrapped error as its root. -/
inductive Error
  | ErrMissingRawTx
  | ErrBadInstructionCount
  | ErrBadTxInputIdx
  | ErrEmptyProgram
  | parser (code : Nat)
  | callback (code : Nat)
  | annotated (e : Error) (n : Note)
  deriving DecidableEq, Repr

/-- Root of an error, as `errors.Root` computes it. -/
def Error.root : Error → Error
  | .annotated e _ => Error.root e
  | e => e

/-- Three-way result of a Go function returning `(value, error)`. -/
inductive Res (α : Type)
  | ok (a : α)
  | err (e : Error)
  | panic
  deriving DecidableEq, Repr

structure KeyID where
  XPub : String
  DerivationPath : List Nat
  deriving DecidableEq, Repr

structure SignatureWitness where
  Quorum : Int
  Keys : List KeyID
  Program : Bytes
  Sigs : List Bytes
  deriving DecidableEq, Repr

/-- The two implementations of the interface `WitnessComponent`. -/
inductive WitnessComponent
  | data (d : Bytes)
  | signature (sw : SignatureWitness)
  deriving DecidableEq, Repr

structure Outpoint where
  Hash : Bytes
  Index : Nat
  deriving DecidableEq, Repr

structure AssetAmount where
  AssetID : Bytes
  Amount : Nat
  deriving DecidableEq, Repr

/-- Modelled from the spec: `bc.TxInput` is not part of the sources; the
record holds what the accessors `IsIssuance`, `Outpoint`, `ControlProgram`
and `IssuanceProgram` return, and the fields `ReferenceData` and
`InputWitness`. -/
structure TxInput where
  IsIssuance : Bool
  Outpoint : Outpoint
  ReferenceData : Bytes
  ControlProgram : Bytes
  IssuanceProgram : Bytes
  InputWitness : List Bytes
  deriving DecidableEq, Repr

/-- Modelled from the spec: `bc.TxOutput` is not part of the sources. -/
structure TxOutput where
  AssetAmount : AssetAmount
  ControlProgram : Bytes
  ReferenceData : Bytes
  deriving DecidableEq, Repr

/-- Modelled from the spec: the transaction skeleton. `Inputs` is a slice of
pointers (the finalizer compares its elements with nil), so an element can
be absent. -/
structure TxData where
  Inputs : List (Option TxInput)
  Outputs : List TxOutput
  MaxTime : Nat
  deriving DecidableEq, Repr

structure SigningInstruction where
  Position : Nat
  WitnessComponents : List WitnessComponent
  deriving DecidableEq, Repr

/-- Modelled from the spec: `Template` is declared outside `witness.go`;
`Transaction` is a pointer and may be nil. -/
structure Template where
  Transaction : Option TxData
  SigningInstructions : List SigningInstruction
  Final : Bool
  deriving DecidableEq, Repr

/-- The four kinds of `constraint` that `buildSigProgram` builds. -/
inductive constraint
  | ttlConstraint (maxTime : Nat)
  | outpointConstraint (o : Outpoint)
  | refdataConstraint (d : Bytes)
  | payConstraint (aa : AssetAmount) (Program : Bytes) (RefDataHash : Option Bytes)
  deriving DecidableEq, Repr

/-- Code used by `witness.go` and defined elsewhere.
`sha3` is `sha3.Sum256`; `Verify` is `ed25519.Verify`;
`ParseP2DPMultiSigProgram` is the parser of `vmutil` (its quorum is a count
of signatures); `TemplateHash tpl index` is `tpl.Hash(index, bc.SigHashAll)`
and is `none` when that call panics; `pushData` and `pushInt64` are the
encodings that `Builder.AddData` and `Builder.AddInt64` append; `code` is
the method `code()` of a constraint. -/
structure Env where
  sha3 : Bytes → Bytes
  Verify : Bytes → Bytes → Bytes → Bool
  ParseP2DPMultiSigProgram : Bytes → Except Nat (List Bytes × Nat)
  TemplateHash : Template → Int → Option Bytes
  pushData : Bytes → Bytes
  pushInt64 : Int → Bytes
  OP_TXSIGHASH : Byte
  OP_EQUAL : Byte
  OP_VERIFY : Byte
  code : constraint → Bytes

/-- Signature of the signing callback, without the context argument. -/
abbrev SignFn := String → List Nat → Bytes → Except Error Bytes

/-- Slice indexing `s[i]` with a Go `int` index; `none` is the
out-of-range panic. -/
def sliceAt {α : Type} (s : List α) (i : Int) : Option α :=
  if i < 0 then none else s[i.toNat]?

/-! ## The program builder of `vmutil` -/

structure Builder where
  Program : Bytes
  deriving DecidableEq, Repr

def NewBuilder : Builder := ⟨[]⟩

def Builder.AddData (env : Env) (b : Builder) (data : Bytes) : Builder :=
  ⟨b.Program ++ env.pushData data⟩

def Builder.AddInt64 (env : Env) (b : Builder) (n : Int) : Builder :=
  ⟨b.Program ++ env.pushInt64 n⟩

def Builder.AddOp (b : Builder) (op : Byte) : Builder :=
  ⟨b.Program ++ [op]⟩

/-! ## `contains` and `buildSigProgram` -/

def contains : List String → String → Bool
  | [], _ => false
  | k :: rest, key => if k = key then true else contains rest key

/-- The loop over the outputs in `buildSigProgram`. -/
def payConstraints (env : Env) : List TxOutput → List constraint
  | [] => []
  | out :: rest =>
    (constraint.payConstraint out.AssetAmount out.ControlProgram
      (if 0 < out.ReferenceData.length then some (env.sha3 out.ReferenceData) else none))
      :: payConstraints env rest

/-- The final loop of `buildSigProgram`: `i` is the loop index and `n` is
`len(constraints)`. -/
def concatCodes (env : Env) (n : Nat) : Nat → List constraint → Bytes → Bytes
  | _, [], program => program
  | i, c :: rest, program =>
    let program1 := program ++ env.code c
    if (i : Int) < (n : Int) - 1 then
      concatCodes env n (i + 1) rest (program1 ++ [env.OP_VERIFY])
    else
      concatCodes env n (i + 1) rest program1

def buildSigProgram (env : Env) (tpl : Template) (index : Int) : Option Bytes :=
  if tpl.Final then
    match env.TemplateHash tpl index with
    | none => none
    | some h =>
      let builder := NewBuilder
      let builder := builder.AddData env h
      let builder := ((builder.AddInt64 env 1).AddOp env.OP_TXSIGHASH).AddOp env.OP_EQUAL
      some builder.Program
  else
    match tpl.Transaction with
    | none => none
    | some tx =>
      let constraints : List constraint :=
        if 0 < tx.MaxTime then [constraint.ttlConstraint tx.MaxTime] else []
      match sliceAt tx.Inputs index with
      | none => none
      | some none => none
      | some (some inp) =>
        let constraints :=
          if !inp.IsIssuance then constraints ++ [constraint.outpointConstraint inp.Outpoint]
          else constraints
        let constraints :=
          if 0 < inp.ReferenceData.length then
            constraints ++ [constraint.refdataConstraint inp.ReferenceData]
          else constraints
        let constraints := constraints ++ payConstraints env tx.Outputs
        some (concatCodes env constraints.length 0 constraints [])

/-! ## `SignatureWitness.Sign` -/

/-- The slot growth at the start of `Sign`: a fresh slice of `len(Keys)`
empty entries with the old signatures copied over its front. -/
def growSigs (sigs : List Bytes) (nkeys : Nat) : List Bytes :=
  if sigs.length < nkeys then sigs ++ List.replicate (nkeys - sigs.length) [] else sigs

/-- The loop over `sw.Keys` in `Sign`; `i` is the loop index, the first
list holds the keys not yet visited, `sigs` is the current `sw.Sigs`. The
result is the final `sw.Sigs` and the returned error. The reads and writes
of `sw.Sigs[i]` are in range because of `growSigs`
(see `signKeys_index_in_range`). -/
def signKeys (xpubs : List String) (signFn : SignFn) (h : Bytes) :
    Nat → List KeyID → List Bytes → List Bytes × Option Error
  | _, [], sigs => (sigs, none)
  | i, keyID :: rest, sigs =>
    if 0 < (sigs.getD i []).length then
      signKeys xpubs signFn h (i + 1) rest sigs
    else if !contains xpubs keyID.XPub then
      signKeys xpubs signFn h (i + 1) rest sigs
    else
      match signFn keyID.XPub keyID.DerivationPath h with
      | .error e => (sigs, some (Error.annotated e (Note.computingSignature i)))
      | .ok sigBytes => signKeys xpubs signFn h (i + 1) rest (sigs.set i sigBytes)

/-- The part of `Sign` that follows the computation of the program: slot
growth, hashing of `sw.Program` and the loop over the keys. -/
def SignatureWitness.signSlots (env : Env) (sw : SignatureWitness) (xpubs : List String)
    (signFn : SignFn) : SignatureWitness × Option Error :=
  let sw1 := { sw with Sigs := growSigs sw.Sigs sw.Keys.length }
  let h := env.sha3 sw1.Program
  let r := signKeys xpubs signFn h 0 sw1.Keys sw1.Sigs
  ({ sw1 with Sigs := r.1 }, r.2)

/-- The method `Sign` of `*SignatureWitness`. The result is `none` when the
call panics (inside `buildSigProgram`), and otherwise the component after
the call together with the returned error. -/
def SignatureWitness.Sign (env : Env) (sw : SignatureWitness) (tpl : Template) (index : Int)
    (xpubs : List String) (signFn : SignFn) : Option (SignatureWitness × Option Error) :=
  if sw.Program.length = 0 then
    match buildSigProgram env tpl index with
    | none => none
    | some p =>
      let sw0 := { sw with Program := p }
      if sw0.Program.length = 0 then some (sw0, some Error.ErrEmptyProgram)
      else some (sw0.signSlots env xpubs signFn)
  else some (sw.signSlots env xpubs signFn)

/-- The method `Sign` of `DataWitness` does nothing. -/
def DataWitness.Sign (_env : Env) (d : Bytes) (_tpl : Template) (_index : Int)
    (_xpubs : List String) (_signFn : SignFn) : Bytes × Option Error :=
  (d, none)

/-! ## `Materialize` -/

/-- The loop of `indexSig`, started at loop index `i`. -/
def indexSigFrom (env : Env) (key msg : Bytes) : Nat → List Bytes → Int
  | _, [] => -1
  | i, sig :: rest =>
    if env.Verify key msg sig then (i : Int) else indexSigFrom env key msg (i + 1) rest

def indexSig (env : Env) (key msg : Bytes) (sigs : List Bytes) : Int :=
  indexSigFrom env key msg 0 sigs

/-- The loop of `SignatureWitness.Materialize`: the first list holds the
pubkeys from the loop index on, `sigs` is the vector collected so far.
The read `sw.Sigs[k]` is in range because `k` comes from `indexSig`
(see `indexSig_in_range`). -/
def collectSigs (env : Env) (h : Bytes) (swSigs : List Bytes) (quorum : Nat) :
    List Bytes → List Bytes → List Bytes
  | [], sigs => sigs
  | key :: rest, sigs =>
    if sigs.length < quorum then
      let k := indexSig env key h swSigs
      if 0 ≤ k then collectSigs env h swSigs quorum rest (sigs ++ [swSigs.getD k.toNat []])
      else collectSigs env h swSigs quorum rest sigs
    else sigs

/-- The program that governs an input: `IssuanceProgram()` for an issuance,
`ControlProgram()` otherwise. -/
def governingProgram (input : TxInput) : Bytes :=
  if input.IsIssuance then input.IssuanceProgram else input.ControlProgram

def SignatureWitness.Materialize (env : Env) (sw : SignatureWitness) (tpl : Template)
    (index : Int) : Res (List Bytes) :=
  match tpl.Transaction with
  | none => Res.panic
  | some tx =>
    match sliceAt tx.Inputs index with
    | none => Res.panic
    | some none => Res.panic
    | some (some input) =>
      let multiSig := governingProgram input
      match env.ParseP2DPMultiSigProgram multiSig with
      | .error e => Res.err (Error.annotated (Error.parser e) Note.parsingInputProgramScript)
      | .ok (pubkeys, quorum) =>
        let h := env.sha3 sw.Program
        let sigs := collectSigs env h sw.Sigs quorum pubkeys []
        Res.ok (sigs ++ [sw.Program])

def DataWitness.Materialize (d : Bytes) (_tpl : Template) (_index : Int) : Res (List Bytes) :=
  Res.ok [d]

/-- Dynamic dispatch of `Materialize` on a `WitnessComponent`. -/
def WitnessComponent.Materialize (env : Env) (c : WitnessComponent) (tpl : Template)
    (index : Int) : Res (List Bytes) :=
  match c with
  | .data d => DataWitness.Materialize d tpl index
  | .signature sw => sw.Materialize env tpl index

/-! ## JSON encoders -/

/-- A JSON document as `json.Marshal` lays it out: object members keep the
order of the struct fields. -/
inductive Json
  | null
  | str (s : String)
  | num (n : Int)
  | arr (items : List Json)
  | obj (members : List (String × Json))

def hexDigit (n : Nat) : Char :=
  if n < 10 then Char.ofNat (48 + n) else Char.ofNat (87 + n)

/-- Modelled from the spec: `chainjson.HexBytes` is declared outside the
sources; byte fields are lowercase hex without `0x`. -/
def hexEncode (b : Bytes) : String :=
  String.mk (b.flatMap fun x => [hexDigit (x.val / 16), hexDigit (x.val % 16)])

def HexBytes.toJson (b : Bytes) : Json := Json.str (hexEncode b)

/-- Encoding of a `KeyID` through its struct tags. -/
def KeyID.toJson (k : KeyID) : Json :=
  Json.obj [("xpub", Json.str k.XPub),
    ("derivation_path", Json.arr (k.DerivationPath.map fun n => Json.num (n : Int)))]

def DataWitness.MarshalJSON (d : Bytes) : Json :=
  Json.obj [("type", Json.str "data"), ("data", HexBytes.toJson d)]

def SignatureWitness.MarshalJSON (sw : SignatureWitness) : Json :=
  Json.obj [("type", Json.str "signature"),
    ("quorum", Json.num sw.Quorum),
    ("keys", Json.arr (sw.Keys.map KeyID.toJson)),
    ("signatures", Json.arr (sw.Sigs.map HexBytes.toJson))]

def WitnessComponent.MarshalJSON : WitnessComponent → Json
  | .data d => DataWitness.MarshalJSON d
  | .signature sw => sw.MarshalJSON

/-- Member names of a JSON object, in order. -/
def Json.memberNames : Json → List String
  | .obj members => members.map Prod.fst
  | _ => []

/-- Value of the member `name` of a JSON object, if there is one. -/
def Json.member (name : String) : Json → Option Json
  | .obj members => (members.find? fun m => m.1 = name).map Prod.snd
  | _ => none

/-! ## `materializeWitnesses` -/

/-- The inner loop of `materializeWitnesses` over the components of the
instruction with enumeration index `i`; `j` is the loop index. -/
def materializeComponents (env : Env) (tpl : Template) (i : Nat) :
    Nat → List WitnessComponent → List Bytes → Res (List Bytes)
  | _, [], witness => Res.ok witness
  | j, c :: rest, witness =>
    match c.Materialize env tpl (i : Int) with
    | .panic => Res.panic
    | .err e => Res.err (Error.annotated e (Note.witnessComponent j i))
    | .ok items => materializeComponents env tpl i (j + 1) rest (witness ++ items)

/-- The assignment `msg.Inputs[pos].InputWitness = witness`. -/
def setInputWitness (msg : TxData) (pos : Nat) (input : TxInput) (witness : List Bytes) :
    TxData :=
  { msg with Inputs := msg.Inputs.set pos (some { input with InputWitness := witness }) }

/-- The outer loop of `materializeWitnesses`; `i` is the enumeration index
and `msg` the current state of the transaction that `tpl` points to. The
result is `none` on a panic, and otherwise the final transaction and the
returned error. -/
def materializeLoop (env : Env) (tpl : Template) :
    Nat → List SigningInstruction → TxData → Option (TxData × Option Error)
  | _, [], msg => some (msg, none)
  | i, sigInst :: rest, msg =>
    match msg.Inputs[sigInst.Position]? with
    | none => none
    | some none =>
      some (msg, some (Error.annotated Error.ErrBadTxInputIdx
        (Note.missingTxInput i sigInst.Position)))
    | some (some input) =>
      match materializeComponents env { tpl with Transaction := some msg } i 0
          sigInst.WitnessComponents [] with
      | .panic => none
      | .err e => some (msg, some e)
      | .ok witness =>
        materializeLoop env tpl (i + 1) rest (setInputWitness msg sigInst.Position input witness)

def materializeWitnesses (env : Env) (txTemplate : Template) :
    Option (Template × Option Error) :=
  match txTemplate.Transaction with
  | none => some (txTemplate, some (Error.annotated Error.ErrMissingRawTx Note.stack))
  | some msg =>
    if msg.Inputs.length < txTemplate.SigningInstructions.length then
      some (txTemplate, some (Error.annotated Error.ErrBadInstructionCount Note.stack))
    else
      match materializeLoop env txTemplate 0 txTemplate.SigningInstructions msg with
      | none => none
      | some (msg1, e) => some ({ txTemplate with Transaction := some msg1 }, e)

/-! ## A concrete environment for evaluating the definitions

The primitives are toy stand-ins with the right shapes: the hash is the
identity, a signature verifies for a key when it is the key followed by the
message, and a multisig program is its quorum byte followed by one-byte
pubkeys (the empty program does not parse). -/

def toyParse : Bytes → Except Nat (List Bytes × Nat)
  | [] => .error 1
  | q :: keys => .ok (keys.map fun k => [k], q.val)

def toyEnv : Env where
  sha3 := fun b => b
  Verify := fun key msg sig => decide (sig = key ++ msg)
  ParseP2DPMultiSigProgram := toyParse
  TemplateHash := fun tpl _ => tpl.Transaction.map fun _ => [7]
  pushData := fun d => (Fin.ofNat d.length) :: d
  pushInt64 := fun n => [Fin.ofNat n.toNat]
  OP_TXSIGHASH := 0xae
  OP_EQUAL := 0x87
  OP_VERIFY := 0x69
  code := fun c =>
    match c with
    | .ttlConstraint t => [1, Fin.ofNat t]
    | .outpointConstraint o => 2 :: o.Hash
    | .refdataConstraint d => 3 :: d
    | .payConstraint aa p _ => 4 :: Fin.ofNat aa.Amount :: p

/-- A signer that signs with the key named by the first character of the
xpub: the signature is that byte followed by the hash. It fails for the
xpub `"bad"` and returns no bytes for the xpub `"nil"`. -/
def toySigner : SignFn := fun xpub _ h =>
  if xpub = "bad" then .error (Error.callback 9)
  else if xpub = "nil" then .ok []
  else .ok ((Fin.ofNat (xpub.get 0).toNat) :: h)

/-! ## The calls of the signer -/

/-- One invocation of the signing callback: its arguments. -/
structure SignerCall where
  xpub : String
  path : List Nat
  hash : Bytes
  deriving DecidableEq, Repr

/-- The loop of `Sign` once more, this time returning the invocations of
`signFn` it makes, in the order in which it makes them. The control flow is
that of `signKeys`. -/
def signKeysCalls (xpubs : List String) (signFn : SignFn) (h : Bytes) :
    Nat → List KeyID → List Bytes → List SignerCall
  | _, [], _ => []
  | i, keyID :: rest, sigs =>
    if 0 < (sigs.getD i []).length then
      signKeysCalls xpubs signFn h (i + 1) rest sigs
    else if !contains xpubs keyID.XPub then
      signKeysCalls xpubs signFn h (i + 1) rest sigs
    else
      match signFn keyID.XPub keyID.DerivationPath h with
      | .error _ => [⟨keyID.XPub, keyID.DerivationPath, h⟩]
      | .ok sigBytes =>
        ⟨keyID.XPub, keyID.DerivationPath, h⟩
          :: signKeysCalls xpubs signFn h (i + 1) rest (sigs.set i sigBytes)

/-- Invocations of `signFn` made by the part of `Sign` that `signSlots`
models. -/
def SignatureWitness.signSlotsCalls (env : Env) (sw : SignatureWitness) (xpubs : List String)
    (signFn : SignFn) : List SignerCall :=
  let sw1 := { sw with Sigs := growSigs sw.Sigs sw.Keys.length }
  let h := env.sha3 sw1.Program
  signKeysCalls xpubs signFn h 0 sw1.Keys sw1.Sigs

/-- Invocations of `signFn` made by one call of `Sign`, in order; the
control flow is that of `SignatureWitness.Sign`. -/
def SignatureWitness.SignCalls (env : Env) (sw : SignatureWitness) (tpl : Template)
    (index : Int) (xpubs : List String) (signFn : SignFn) : List SignerCall :=
  if sw.Program.length = 0 then
    match buildSigProgram env tpl index with
    | none => []
    | some p =>
      let sw0 := { sw with Program := p }
      if sw0.Program.length = 0 then []
      else sw0.signSlotsCalls env xpubs signFn
  else sw.signSlotsCalls env xpubs signFn

/-- Reference, written from the specification: the keys from index `i` on
whose slot in `sigs` is empty (an absent slot counts as empty) and whose
xpub is available, in increasing index. -/
def eligibleKeys (xpubs : List String) (sigs : List Bytes) : Nat → List KeyID → List KeyID
  | _, [] => []
  | i, key :: rest =>
    if (sigs.getD i []).length = 0 ∧ contains xpubs key.XPub = true then
      key :: eligibleKeys xpubs sigs (i + 1) rest
    else eligibleKeys xpubs sigs (i + 1) rest

/-- Reference, written from the specification: one call per key, in order,
with the key's xpub and derivation path and the hash `h`, and no call after
the first one that fails. -/
def callsUntilFailure (signFn : SignFn) (h : Bytes) : List KeyID → List SignerCall
  | [] => []
  | key :: rest =>
    match signFn key.XPub key.DerivationPath h with
    | .error _ => [⟨key.XPub, key.DerivationPath, h⟩]
    | .ok _ => ⟨key.XPub, key.DerivationPath, h⟩ :: callsUntilFailure signFn h rest

/-! ## Reference for the finalizer -/

/-- An input with its `InputWitness` blanked: all its other fields. -/
def TxInput.withoutWitness (inp : TxInput) : TxInput := { inp with InputWitness := [] }

/-- A transaction with the `InputWitness` of every input blanked:
everything in it but the input witnesses. -/
def TxData.withoutWitnesses (tx : TxData) : TxData :=
  { tx with Inputs := tx.Inputs.map (Option.map TxInput.withoutWitness) }

/-- An input with `witness` as its `InputWitness`. -/
def TxInput.withWitness (witness : List Bytes) (inp : TxInput) : TxInput :=
  { inp with InputWitness := witness }

/-- Reference, written from the specification: the concatenation, in
order, of the items that the components of an instruction materialize to
for the index `i`. -/
def concatMaterialized (env : Env) (tpl : Template) (i : Nat)
    (comps : List WitnessComponent) : List Bytes :=
  comps.flatMap fun c =>
    match c.Materialize env tpl (i : Int) with
    | .ok items => items
    | _ => []

/-- Reference, written from the specification: `witness` installed as the
`InputWitness` of the input at `pos`, if there is an input there. -/
def installWitness (msg : TxData) (pos : Nat) (witness : List Bytes) : TxData :=
  match msg.Inputs[pos]? with
  | some (some input) => setInputWitness msg pos input witness
  | _ => msg

/-- Reference, written from the specification: for each instruction, taken
in order with its enumeration index starting at `i`, install at the input
at its `Position` the concatenation of what its components materialize to
for the enumeration index. -/
def referenceInstall (env : Env) (tpl : Template) :
    Nat → List SigningInstruction → TxData → TxData
  | _, [], msg => msg
  | i, inst :: rest, msg =>
    referenceInstall env tpl (i + 1) rest
      (installWitness msg inst.Position (concatMaterialized env tpl i inst.WitnessComponents))

/-! ## Sample data -/

def keyA : KeyID := ⟨"A", [0]⟩

def keyB : KeyID := ⟨"B", [1]⟩

def keyC : KeyID := ⟨"C", [2]⟩

/-- A spend input whose control program is the toy 2-of-3 multisig over the
pubkeys `[65]`, `[66]`, `[67]` (the bytes of `A`, `B`, `C`). -/
def spendInput : TxInput :=
  { IsIssuance := false, Outpoint := ⟨[9], 0⟩, ReferenceData := [],
    ControlProgram := [2, 65, 66, 67], IssuanceProgram := [], InputWitness := [] }

/-- An issuance input without reference data whose issuance program does
not parse. -/
def issuanceInput : TxInput :=
  { IsIssuance := true, Outpoint := ⟨[], 0⟩, ReferenceData := [],
    ControlProgram := [], IssuanceProgram := [], InputWitness := [] }

/-- A non-final template with one spend input. -/
def spendTemplate : Template :=
  { Transaction := some { Inputs := [some spendInput], Outputs := [], MaxTime := 0 },
    SigningInstructions := [], Final := false }

/-- A non-final template with no MaxTime, one issuance input without
reference data and no outputs: no constraint applies. -/
def bareTemplate : Template :=
  { Transaction := some { Inputs := [some issuanceInput], Outputs := [], MaxTime := 0 },
    SigningInstructions := [], Final := false }

/-- A component with program `[5]` and the signature of `A` in slot 0. -/
def partlySigned : SignatureWitness :=
  { Quorum := 2, Keys := [keyA, keyB, keyC], Program := [5], Sigs := [[65, 5]] }

/-- A component that starts with more signature slots than keys. -/
def longSigs : SignatureWitness :=
  { Quorum := 1, Keys := [keyA], Program := [5], Sigs := [[65, 5], [1]] }

/-- A component with one key, no program and no signature slots. -/
def unbound : SignatureWitness :=
  { Quorum := 1, Keys := [keyA], Program := [], Sigs := [] }

/-- The component `partlySigned` with another program. -/
def partlySignedOther : SignatureWitness := { partlySigned with Program := [6] }

/-- A transaction with three inputs and one signing instruction that
refers to input position 7. -/
def position7Template : Template :=
  { Transaction := some
      { Inputs := [some spendInput, some spendInput, some spendInput], Outputs := [],
        MaxTime := 0 },
    SigningInstructions := [{ Position := 7, WitnessComponents := [] }], Final := false }

/-- A transaction with two inputs, the second of them absent, and one
signing instruction that refers to position 1. -/
def absentInputTemplate : Template :=
  { Transaction := some { Inputs := [some spendInput, none], Outputs := [], MaxTime := 0 },
    SigningInstructions := [{ Position := 1, WitnessComponents := [] }], Final := false }

/-- A transaction with one input and two signing instructions. -/
def twoInstructionsTemplate : Template :=
  { Transaction := some { Inputs := [some spendInput], Outputs := [], MaxTime := 0 },
    SigningInstructions :=
      [{ Position := 0, WitnessComponents := [WitnessComponent.signature partlySigned] },
       { Position := 0, WitnessComponents := [] }],
    Final := false }

/-- The component of scenario S3 after both signing rounds: signatures of
`A` and `C`, an empty slot for `B`. -/
def twoOfThree : SignatureWitness :=
  { Quorum := 2, Keys := [keyA, keyB, keyC], Program := [5], Sigs := [[65, 5], [], [67, 5]] }

/-- A component holding only the signature of `C`. -/
def oneOfThree : SignatureWitness :=
  { Quorum := 2, Keys := [keyA, keyB, keyC], Program := [5], Sigs := [[], [], [67, 5]] }

/-- Reference selection of `Materialize`, written from the specification:
walk the pubkeys in declaration order, for each one take the first entry of
`Sigs` that verifies for it over the hash of `Program`, skip the pubkeys
without such an entry, keep the first `quorum` signatures found, and put
`Program` last. -/
def referenceWitness (env : Env) (sw : SignatureWitness) (pubkeys : List Bytes)
    (quorum : Nat) : List Bytes :=
  ((pubkeys.filterMap fun key =>
      sw.Sigs.find? fun sig => env.Verify key (env.sha3 sw.Program) sig).take quorum)
    ++ [sw.Program]

/-- The declared pubkeys for which `Sigs` holds a verifying signature, in
declaration order. -/
def matchingKeys (env : Env) (sw : SignatureWitness) (pubkeys : List Bytes) : List Bytes :=
  pubkeys.filter fun key => sw.Sigs.any fun sig => env.Verify key (env.sha3 sw.Program) sig

/-- What the specification says slot `i` holds after `Sign` has passed
key `i`: `old` is the slot before the call (an absent slot counts as
empty), `new` the slot after it. A non-empty slot is kept; an empty slot of
an available key holds the bytes the signer returned; an empty slot of an
unavailable key stays empty. -/
def SlotSettled (xpubs : List String) (signFn : SignFn) (h : Bytes) (key : KeyID)
    (old new : Bytes) : Prop :=
  (0 < old.length → new = old)
    ∧ (old.length = 0 → contains xpubs key.XPub = true →
        signFn key.XPub key.DerivationPath h = .ok new)
    ∧ (old.length = 0 → contains xpubs key.XPub = false → new = [])

/-- The component of scenario S3 before signing: three keys, program `[5]`,
no signature yet. -/
def threeKeys : SignatureWitness :=
  { Quorum := 2, Keys := [keyA, keyB, keyC], Program := [5], Sigs := [] }

/-- A component whose second key is the xpub the sample signer rejects. -/
def middleKeyFails : SignatureWitness :=
  { Quorum := 2, Keys := [keyA, ⟨"bad", [1]⟩, keyC], Program := [5], Sigs := [] }

/-- Reference list of constraints of a non-final template, written from the
specification: TTL if `MaxTime > 0`, outpoint if the input is not an
issuance, reference data if the input has some, then one PayTo per output in
declaration order, with the hash of the output's reference data if it has
some. -/
def applicableConstraints (env : Env) (tx : TxData) (inp : TxInput) : List constraint :=
  (if 0 < tx.MaxTime then [constraint.ttlConstraint tx.MaxTime] else [])
    ++ (if inp.IsIssuance = false then [constraint.outpointConstraint inp.Outpoint] else [])
    ++ (if inp.ReferenceData ≠ [] then [constraint.refdataConstraint inp.ReferenceData] else [])
    ++ tx.Outputs.map fun out =>
        constraint.payConstraint out.AssetAmount out.ControlProgram
          (if out.ReferenceData ≠ [] then some (env.sha3 out.ReferenceData) else none)

/-- Reference concatenation, written from the specification: the codes in
order with one `OP_VERIFY` between consecutive codes and none after the
last. -/
def joinWithVerify (env : Env) : List Bytes → Bytes
  | [] => []
  | [c] => c
  | c :: c2 :: rest => c ++ [env.OP_VERIFY] ++ joinWithVerify env (c2 :: rest)

/-- The template of scenario S2: a spend input, `MaxTime = 1000`, one output
of amount 5 with control program `[80]` and no reference data. -/
def scenarioS2 : Template :=
  { Transaction := some
      { Inputs := [some spendInput],
        Outputs := [{ AssetAmount := ⟨[10], 5⟩, ControlProgram := [80], ReferenceData := [] }],
        MaxTime := 1000 },
    SigningInstructions := [], Final := false }

/-- A final template with one issuance input. -/
def finalTemplate : Template :=
  { Transaction := some { Inputs := [some issuanceInput], Outputs := [], MaxTime := 0 },
    SigningInstructions := [], Final := true }

/-- A transaction with two spend inputs and two instructions whose
positions differ from their enumeration indices: instruction 0 writes input
1 and instruction 1 writes input 0. -/
def crossedTemplate : Template :=
  { Transaction := some
      { Inputs := [some spendInput, some spendInput], Outputs := [], MaxTime := 0 },
    SigningInstructions :=
      [{ Position := 1,
         WitnessComponents := [WitnessComponent.signature twoOfThree, WitnessComponent.data [1]] },
       { Position := 0, WitnessComponents := [WitnessComponent.data [2]] }],
    Final := false }

/-- A transaction with a spend input and an issuance input whose program
does not parse, and two instructions that both name position 0; the
signature component of the second one is materialized for index 1 and
fails. -/
def repeatedPositionTemplate : Template :=
  { Transaction := some
      { Inputs := [some spendInput, some issuanceInput], Outputs := [], MaxTime := 0 },
    SigningInstructions :=
      [{ Position := 0, WitnessComponents := [WitnessComponent.data [1]] },
       { Position := 0, WitnessComponents := [WitnessComponent.signature partlySigned] }],
    Final := false }

/-- The template `crossedTemplate` after its witnesses are installed. -/
def crossedDone : Template :=
  { crossedTemplate with
    Transaction := some
      { Inputs := [some { spendInput with InputWitness := [[2]] },
          some { spendInput with InputWitness := [[65, 5], [67, 5], [5], [1]] }],
        Outputs := [], MaxTime := 0 } }

/-- The template `repeatedPositionTemplate` after the finalizer has failed
at its second instruction. -/
def repeatedPositionFailed : Template :=
  { repeatedPositionTemplate with
    Transaction := some
      { Inputs := [some { spendInput with InputWitness := [[1]] }, some issuanceInput],
        Outputs := [], MaxTime := 0 } }

/-! ## Lemmas on the signing loop -/

theorem signKeys_length (xpubs : List String) (signFn : SignFn) (h : Bytes) :
    ∀ (ks : List KeyID) (i : Nat) (s : List Bytes),
      (signKeys xpubs signFn h i ks s).1.length = s.length := by
  intro ks
  induction ks with
  | nil => intro i s; simp [signKeys]
  | cons k ks ih =>
    intro i s
    simp only [signKeys]
    split
    · exact ih _ _
    · split
      · exact ih _ _
      · split
        · rfl
        · rw [ih]; simp

/-- The loop started at index `i` leaves every slot below `i` alone. -/
theorem signKeys_below (xpubs : List String) (signFn : SignFn) (h : Bytes) :
    ∀ (ks : List KeyID) (i : Nat) (s : List Bytes) (n : Nat), n < i →
      (signKeys xpubs signFn h i ks s).1[n]? = s[n]? := by
  intro ks
  induction ks with
  | nil => intro i s n _; simp [signKeys]
  | cons k ks ih =>
    intro i s n hn
    simp only [signKeys]
    split
    · exact ih _ _ _ (by omega)
    · split
      · exact ih _ _ _ (by omega)
      · split
        · rfl
        · rw [ih _ _ _ (by omega), List.getElem?_set_ne (by omega)]

/-- The loop never overwrites a slot that holds a non-empty signature. -/
theorem signKeys_keeps (xpubs : List String) (signFn : SignFn) (h : Bytes) :
    ∀ (ks : List KeyID) (i : Nat) (s : List Bytes) (n : Nat) (b : Bytes),
      s[n]? = some b → b ≠ [] → (signKeys xpubs signFn h i ks s).1[n]? = some b := by
  intro ks
  induction ks with
  | nil => intro i s n b hb _; simpa [signKeys] using hb
  | cons k ks ih =>
    intro i s n b hb hne
    simp only [signKeys]
    split
    · exact ih _ _ _ _ hb hne
    · rename_i hlen
      split
      · exact ih _ _ _ _ hb hne
      · split
        · exact hb
        · apply ih _ _ _ _ _ hne
          have hin : i ≠ n := by
            rintro rfl
            apply hlen
            rw [List.getD_eq_getElem?_getD, hb]
            exact List.length_pos.mpr hne
          rw [List.getElem?_set_ne hin]; exact hb

/-- Running the loop on its own output changes nothing and returns the same
error. -/
theorem signKeys_idem (xpubs : List String) (signFn : SignFn) (h : Bytes) :
    ∀ (ks : List KeyID) (i : Nat) (s : List Bytes),
      signKeys xpubs signFn h i ks (signKeys xpubs signFn h i ks s).1
        = signKeys xpubs signFn h i ks s := by
  intro ks
  induction ks with
  | nil => intro i s; simp [signKeys]
  | cons k ks ih =>
    intro i s
    by_cases h1 : 0 < (s.getD i []).length
    · have e1 : signKeys xpubs signFn h i (k :: ks) s = signKeys xpubs signFn h (i + 1) ks s := by
        simp only [signKeys, if_pos h1]
      have h2 : 0 < ((signKeys xpubs signFn h (i + 1) ks s).1.getD i []).length := by
        rw [List.getD_eq_getElem?_getD, signKeys_below _ _ _ _ _ _ _ (Nat.lt_succ_self i),
          ← List.getD_eq_getElem?_getD]
        exact h1
      rw [e1]
      simp only [signKeys, if_pos h2]
      exact ih _ _
    · by_cases h3 : (!contains xpubs k.XPub) = true
      · have e1 : signKeys xpubs signFn h i (k :: ks) s
            = signKeys xpubs signFn h (i + 1) ks s := by
          simp only [signKeys, if_neg h1, if_pos h3]
        have h2 : ¬ 0 < ((signKeys xpubs signFn h (i + 1) ks s).1.getD i []).length := by
          rw [List.getD_eq_getElem?_getD, signKeys_below _ _ _ _ _ _ _ (Nat.lt_succ_self i),
            ← List.getD_eq_getElem?_getD]
          exact h1
        rw [e1]
        simp only [signKeys, if_neg h2, if_pos h3]
        exact ih _ _
      · cases hs : signFn k.XPub k.DerivationPath h with
        | error e =>
          have e1 : signKeys xpubs signFn h i (k :: ks) s
              = (s, some (Error.annotated e (Note.computingSignature i))) := by
            simp only [signKeys, if_neg h1, if_neg h3, hs]
          rw [e1]
          exact e1
        | ok sigBytes =>
          have e1 : signKeys xpubs signFn h i (k :: ks) s
              = signKeys xpubs signFn h (i + 1) ks (s.set i sigBytes) := by
            simp only [signKeys, if_neg h1, if_neg h3, hs]
          rw [e1]
          have hslot : (signKeys xpubs signFn h (i + 1) ks (s.set i sigBytes)).1[i]?
              = (s.set i sigBytes)[i]? :=
            signKeys_below _ _ _ _ _ _ _ (Nat.lt_succ_self i)
          by_cases h4 : 0 <
              ((signKeys xpubs signFn h (i + 1) ks (s.set i sigBytes)).1.getD i []).length
          · simp only [signKeys, if_pos h4]
            exact ih _ _
          · have hset : (signKeys xpubs signFn h (i + 1) ks (s.set i sigBytes)).1.set i sigBytes
                = (signKeys xpubs signFn h (i + 1) ks (s.set i sigBytes)).1 := by
              apply List.ext_getElem?
              intro n
              by_cases hn : i = n
              · subst hn
                rw [hslot]
                by_cases hi : i < s.length
                · have hi2 : i < (signKeys xpubs signFn h (i + 1) ks (s.set i sigBytes)).1.length := by
                    rw [signKeys_length, List.length_set]; exact hi
                  rw [List.getElem?_set_self hi2, List.getElem?_set_self hi]
                · have hi2 : ((signKeys xpubs signFn h (i + 1) ks
                      (s.set i sigBytes)).1.set i sigBytes).length ≤ i := by
                    rw [List.length_set, signKeys_length, List.length_set]; omega
                  have hi3 : (s.set i sigBytes).length ≤ i := by
                    rw [List.length_set]; omega
                  rw [List.getElem?_eq_none hi2, List.getElem?_eq_none hi3]
              · rw [List.getElem?_set_ne hn]
            simp only [signKeys, if_neg h4, if_neg h3, hs, hset]
            exact ih _ _

theorem signKeys_error_shape (xpubs : List String) (signFn : SignFn) (h : Bytes) :
    ∀ (ks : List KeyID) (i : Nat) (s : List Bytes),
      (signKeys xpubs signFn h i ks s).2 ≠ some Error.ErrEmptyProgram := by
  intro ks
  induction ks with
  | nil => intro i s; simp [signKeys]
  | cons k ks ih =>
    intro i s
    simp only [signKeys]
    split
    · exact ih _ _
    · split
      · exact ih _ _
      · split
        · simp
        · exact ih _ _

theorem growSigs_length (s : List Bytes) (n : Nat) : (growSigs s n).length = max s.length n := by
  unfold growSigs
  split
  · rw [List.length_append, List.length_replicate]; omega
  · omega

theorem growSigs_of_le (s : List Bytes) (n : Nat) (h : n ≤ s.length) : growSigs s n = s := by
  unfold growSigs
  rw [if_neg (by omega)]

theorem growSigs_getElem? (s : List Bytes) (n i : Nat) (b : Bytes) (h : s[i]? = some b) :
    (growSigs s n)[i]? = some b := by
  unfold growSigs
  split
  · have hi : i < s.length := by
      by_contra hc
      rw [List.getElem?_eq_none (by omega)] at h
      exact Option.noConfusion h
    rw [List.getElem?_append_left hi]; exact h
  · exact h

/-- Every read and write `sw.Sigs[i]` of the loop in `Sign` is in range:
after the slot growth there is a slot for each key. -/
theorem signKeys_index_in_range (sigs : List Bytes) (keys : List KeyID) (i : Nat)
    (h : i < keys.length) : i < (growSigs sigs keys.length).length := by
  rw [growSigs_length]; omega

theorem signSlots_idem (env : Env) (sw : SignatureWitness) (xpubs : List String)
    (signFn : SignFn) :
    (sw.signSlots env xpubs signFn).1.signSlots env xpubs signFn
      = sw.signSlots env xpubs signFn := by
  have hlen : sw.Keys.length ≤ (signKeys xpubs signFn (env.sha3 sw.Program) 0 sw.Keys
      (growSigs sw.Sigs sw.Keys.length)).1.length := by
    rw [signKeys_length, growSigs_length]; omega
  simp only [SignatureWitness.signSlots]
  rw [growSigs_of_le _ _ hlen, signKeys_idem]

theorem signSlots_program (env : Env) (sw : SignatureWitness) (xpubs : List String)
    (signFn : SignFn) : (sw.signSlots env xpubs signFn).1.Program = sw.Program := rfl

/-! ## Theorems on `SignatureWitness.Sign` -/

/-- C1: `Sign` is idempotent. Running `Sign` a second time with the same
template, index, xpubs and signer on the component left by a first `Sign`
gives the same component (same `Sigs`, same `Program`) and the same
returned result as the first call alone. -/
theorem Sign_idempotent (env : Env) (sw : SignatureWitness) (tpl : Template) (index : Int)
    (xpubs : List String) (signFn : SignFn) :
    (sw.Sign env tpl index xpubs signFn).bind
        (fun r => r.1.Sign env tpl index xpubs signFn)
      = sw.Sign env tpl index xpubs signFn := by
  unfold SignatureWitness.Sign
  by_cases hp : sw.Program.length = 0
  · rw [if_pos hp]
    cases hb : buildSigProgram env tpl index with
    | none => rfl
    | some p =>
      by_cases hq : p.length = 0
      · simp only [if_pos hq, Option.some_bind, hb]
      · simp only [if_neg hq, Option.some_bind, signSlots_program, signSlots_idem]
  · simp only [if_neg hp, Option.some_bind, signSlots_program, signSlots_idem]

/-- C2: `Sign` is monotonic. Whenever `Sign` returns, with success or with
an error, every slot of `Sigs` that was non-empty before the call holds the
same bytes after it. -/
theorem Sign_monotonic (env : Env) (sw : SignatureWitness) (tpl : Template) (index : Int)
    (xpubs : List String) (signFn : SignFn) (sw1 : SignatureWitness) (err : Option Error)
    (hcall : sw.Sign env tpl index xpubs signFn = some (sw1, err))
    (i : Nat) (b : Bytes) (hslot : sw.Sigs[i]? = some b) (hne : 0 < b.length) :
    sw1.Sigs[i]? = some b := by
  have hb : b ≠ [] := List.length_pos.mp hne
  have key : ∀ sw0 : SignatureWitness, sw0.Sigs = sw.Sigs →
      (sw0.signSlots env xpubs signFn).1.Sigs[i]? = some b := by
    intro sw0 h0
    simp only [SignatureWitness.signSlots]
    apply signKeys_keeps _ _ _ _ _ _ _ _ _ hb
    apply growSigs_getElem?
    rw [h0]; exact hslot
  unfold SignatureWitness.Sign at hcall
  by_cases hp : sw.Program.length = 0
  · rw [if_pos hp] at hcall
    cases hbp : buildSigProgram env tpl index with
    | none => rw [hbp] at hcall; exact Option.noConfusion hcall
    | some p =>
      rw [hbp] at hcall
      by_cases hq : p.length = 0
      · simp only [if_pos hq, Option.some.injEq, Prod.mk.injEq] at hcall
        rw [← hcall.1]; exact hslot
      · simp only [if_neg hq, Option.some.injEq] at hcall
        have h1 := key { sw with Program := p } rfl
        rw [hcall] at h1; exact h1
  · simp only [if_neg hp, Option.some.injEq] at hcall
    have h1 := key sw rfl
    rw [hcall] at h1; exact h1

/-- Witness of `Sign_monotonic`: signing `partlySigned` with only `C`
available keeps the signature of `A` in slot 0. -/
theorem Sign_monotonic_witness :
    partlySigned.Sign toyEnv spendTemplate 0 ["C"] toySigner
        = some ({ partlySigned with Sigs := [[65, 5], [], [67, 5]] }, none)
      ∧ ({ partlySigned with Sigs := [[65, 5], [], [67, 5]] } : SignatureWitness).Sigs[0]?
        = some [65, 5] :=
  ⟨by decide,
    Sign_monotonic toyEnv partlySigned spendTemplate 0 ["C"] toySigner
      { partlySigned with Sigs := [[65, 5], [], [67, 5]] } none (by decide) 0 [65, 5]
      (by decide) (by decide)⟩

/-- C3, as stated, fails: a component that starts with two signature slots
and one key still has two slots after a successful `Sign`, and a component
with one key and no slot still has no slot after `Sign` fails with
`ErrEmptyProgram`. -/
theorem Sign_sigs_length_counterexample :
    (longSigs.Sign toyEnv spendTemplate 0 ["A"] toySigner).map
        (fun r => (r.1.Sigs.length, r.1.Keys.length, r.2)) = some (2, 1, none)
      ∧ (unbound.Sign toyEnv bareTemplate 0 ["A"] toySigner).map
        (fun r => (r.1.Sigs.length, r.1.Keys.length, r.2))
          = some (0, 1, some Error.ErrEmptyProgram) := by
  decide

/-- C3, amended: when `Sign` returns, `Keys` is unchanged; if the returned
result is not `ErrEmptyProgram` (success or a signer error), `len(Sigs)` is
the larger of `len(Keys)` and the length of `Sigs` before the call, so it is
`len(Keys)` whenever the starting `Sigs` was not longer than `Keys`; if the
result is `ErrEmptyProgram`, `Sigs` is as it was before the call. -/
theorem Sign_sigs_length (env : Env) (sw : SignatureWitness) (tpl : Template) (index : Int)
    (xpubs : List String) (signFn : SignFn) (sw1 : SignatureWitness) (err : Option Error)
    (hcall : sw.Sign env tpl index xpubs signFn = some (sw1, err)) :
    sw1.Keys = sw.Keys
      ∧ (err ≠ some Error.ErrEmptyProgram →
          sw1.Sigs.length = max sw.Sigs.length sw.Keys.length
            ∧ (sw.Sigs.length ≤ sw.Keys.length → sw1.Sigs.length = sw1.Keys.length))
      ∧ (err = some Error.ErrEmptyProgram → sw1.Sigs = sw.Sigs) := by
  have key : ∀ sw0 : SignatureWitness, sw0.Sigs = sw.Sigs → sw0.Keys = sw.Keys →
      sw0.signSlots env xpubs signFn = (sw1, err) →
      sw1.Keys = sw.Keys
        ∧ (err ≠ some Error.ErrEmptyProgram →
            sw1.Sigs.length = max sw.Sigs.length sw.Keys.length
              ∧ (sw.Sigs.length ≤ sw.Keys.length → sw1.Sigs.length = sw1.Keys.length))
        ∧ (err = some Error.ErrEmptyProgram → sw1.Sigs = sw.Sigs) := by
    intro sw0 h0 hk hrun
    simp only [SignatureWitness.signSlots, Prod.mk.injEq] at hrun
    obtain ⟨hsw, herr⟩ := hrun
    have hlen : sw1.Sigs.length = max sw.Sigs.length sw.Keys.length := by
      rw [← hsw]
      simp only [signKeys_length, growSigs_length, h0, hk]
    have hkeys : sw1.Keys = sw.Keys := by rw [← hsw]; exact hk
    refine ⟨hkeys, fun _ => ⟨hlen, fun hle => ?_⟩, fun he => ?_⟩
    · rw [hlen, hkeys]; omega
    · exact absurd (herr.trans he) (signKeys_error_shape _ _ _ _ _ _)
  unfold SignatureWitness.Sign at hcall
  by_cases hp : sw.Program.length = 0
  · rw [if_pos hp] at hcall
    cases hbp : buildSigProgram env tpl index with
    | none => rw [hbp] at hcall; exact Option.noConfusion hcall
    | some p =>
      rw [hbp] at hcall
      by_cases hq : p.length = 0
      · simp only [if_pos hq, Option.some.injEq, Prod.mk.injEq] at hcall
        obtain ⟨hsw, herr⟩ := hcall
        refine ⟨by rw [← hsw], fun hne => absurd herr.symm hne, fun _ => by rw [← hsw]⟩
      · simp only [if_neg hq, Option.some.injEq] at hcall
        exact key { sw with Program := p } rfl rfl hcall
  · simp only [if_neg hp, Option.some.injEq] at hcall
    exact key sw rfl rfl hcall

/-- Witness of `Sign_sigs_length`: a successful `Sign` of `partlySigned`
(one slot, three keys) ends with three slots. -/
theorem Sign_sigs_length_witness :
    partlySigned.Sign toyEnv spendTemplate 0 ["C"] toySigner
        = some ({ partlySigned with Sigs := [[65, 5], [], [67, 5]] }, none)
      ∧ ({ partlySigned with Sigs := [[65, 5], [], [67, 5]] } : SignatureWitness).Sigs.length
        = max partlySigned.Sigs.length partlySigned.Keys.length :=
  ⟨by decide,
    ((Sign_sigs_length toyEnv partlySigned spendTemplate 0 ["C"] toySigner
      { partlySigned with Sigs := [[65, 5], [], [67, 5]] } none (by decide)).2.1
        (by decide)).1⟩

/-! ## Theorems on the JSON encoders -/

/-- C4: the encoder of a `SignatureWitness` emits the members `type`,
`quorum`, `keys` and `signatures` and no member `program`, whatever
`sw.Program` is; the sample component with program `[5]` shows it. -/
theorem SignatureWitness_MarshalJSON_members :
    (∀ sw : SignatureWitness,
        sw.MarshalJSON.memberNames = ["type", "quorum", "keys", "signatures"]
          ∧ sw.MarshalJSON.member "program" = none)
      ∧ partlySigned.Program = [5]
      ∧ partlySigned.MarshalJSON
        = Json.obj [("type", Json.str "signature"), ("quorum", Json.num 2),
            ("keys", Json.arr
              [Json.obj [("xpub", Json.str "A"), ("derivation_path", Json.arr [Json.num 0])],
               Json.obj [("xpub", Json.str "B"), ("derivation_path", Json.arr [Json.num 1])],
               Json.obj [("xpub", Json.str "C"), ("derivation_path", Json.arr [Json.num 2])]]),
            ("signatures", Json.arr [Json.str "4105"])] := by
  refine ⟨fun sw => ⟨rfl, ?_⟩, rfl, ?_⟩
  · simp [SignatureWitness.MarshalJSON, Json.member, List.find?]
  · have hhex : hexEncode [65, 5] = "4105" := by decide
    simp [SignatureWitness.MarshalJSON, partlySigned, keyA, keyB, keyC, KeyID.toJson,
      HexBytes.toJson, hhex]

/-- C5: two signature components that differ only in `Program` have the same
JSON text, so no decoder can give back every component from its encoding. -/
theorem MarshalJSON_loses_program :
    (WitnessComponent.signature partlySigned).MarshalJSON
        = (WitnessComponent.signature partlySignedOther).MarshalJSON
      ∧ WitnessComponent.signature partlySigned ≠ WitnessComponent.signature partlySignedOther
      ∧ ∀ decode : Json → Option WitnessComponent,
          ¬ ∀ W : WitnessComponent, decode W.MarshalJSON = some W := by
  refine ⟨rfl, by decide, fun decode hall => ?_⟩
  have h1 := hall (WitnessComponent.signature partlySigned)
  have h2 := hall (WitnessComponent.signature partlySignedOther)
  have h3 : (WitnessComponent.signature partlySigned).MarshalJSON
      = (WitnessComponent.signature partlySignedOther).MarshalJSON := rfl
  rw [h3, h2] at h1
  exact absurd (Option.some.inj h1) (by decide)

/-! ## Theorems on `materializeWitnesses`: the checks on the template -/

/-- An error returned by `Materialize` comes from the multisig parser. -/
theorem Materialize_error_root (env : Env) (c : WitnessComponent) (tpl : Template)
    (index : Int) (e : Error) (h : c.Materialize env tpl index = Res.err e) :
    ∃ code, e.root = Error.parser code := by
  cases c with
  | data d => simp [WitnessComponent.Materialize, DataWitness.Materialize] at h
  | signature sw =>
    simp only [WitnessComponent.Materialize, SignatureWitness.Materialize] at h
    split at h
    · exact Res.noConfusion h
    · split at h
      · exact Res.noConfusion h
      · exact Res.noConfusion h
      · split at h
        · rename_i code _
          injection h with h
          exact ⟨code, by rw [← h]; rfl⟩
        · exact Res.noConfusion h

theorem materializeComponents_error_root (env : Env) (tpl : Template) (i : Nat) :
    ∀ (cs : List WitnessComponent) (j : Nat) (witness : List Bytes) (e : Error),
      materializeComponents env tpl i j cs witness = Res.err e →
      ∃ code, e.root = Error.parser code := by
  intro cs
  induction cs with
  | nil => intro j witness e h; simp [materializeComponents] at h
  | cons c cs ih =>
    intro j witness e h
    simp only [materializeComponents] at h
    split at h
    · exact Res.noConfusion h
    · rename_i e1 he1
      injection h with h
      obtain ⟨code, hc⟩ := Materialize_error_root env c tpl i e1 he1
      exact ⟨code, by rw [← h]; exact hc⟩
    · exact ih _ _ _ h

/-- An error returned by the loop of `materializeWitnesses` is rooted at
`ErrBadTxInputIdx` or comes from the multisig parser. -/
theorem materializeLoop_error_root (env : Env) (tpl : Template) :
    ∀ (insts : List SigningInstruction) (i : Nat) (msg msg1 : TxData) (e : Error),
      materializeLoop env tpl i insts msg = some (msg1, some e) →
      e.root = Error.ErrBadTxInputIdx ∨ ∃ code, e.root = Error.parser code := by
  intro insts
  induction insts with
  | nil => intro i msg msg1 e h; simp [materializeLoop] at h
  | cons inst insts ih =>
    intro i msg msg1 e h
    simp only [materializeLoop] at h
    split at h
    · exact Option.noConfusion h
    · simp only [Option.some.injEq, Prod.mk.injEq] at h
      left; rw [← h.2]; rfl
    · split at h
      · exact Option.noConfusion h
      · rename_i e1 he1
        simp only [Option.some.injEq, Prod.mk.injEq] at h
        right
        obtain ⟨code, hc⟩ := materializeComponents_error_root env _ i _ _ _ e1 he1
        exact ⟨code, by rw [← h.2]; exact hc⟩
      · exact ih _ _ _ _ h

/-- C6: on the three-input transaction whose instruction refers to position
7, `materializeWitnesses` panics on the slice index instead of returning
`ErrBadTxInputIdx`; on a transaction whose input at the referenced position
is absent it does return `ErrBadTxInputIdx` with the index and the
position. -/
theorem materializeWitnesses_position_out_of_range :
    materializeWitnesses toyEnv position7Template = none
      ∧ materializeWitnesses toyEnv absentInputTemplate
        = some (absentInputTemplate,
            some (Error.annotated Error.ErrBadTxInputIdx (Note.missingTxInput 0 1))) := by
  decide

/-- C7: `materializeWitnesses` returns `ErrMissingRawTx`, with the template
untouched, when the transaction is absent, and returns
`ErrBadInstructionCount`, with the template untouched and whatever the
components are, when the transaction is present and there are more
instructions than inputs; and whenever it returns an error, that error is
rooted at `ErrMissingRawTx` exactly when the transaction is absent, and at
`ErrBadInstructionCount` exactly when the transaction is present with more
instructions than inputs. -/
theorem materializeWitnesses_prechecks (env : Env) (tpl : Template) :
    (tpl.Transaction = none →
        materializeWitnesses env tpl
          = some (tpl, some (Error.annotated Error.ErrMissingRawTx Note.stack)))
      ∧ (∀ msg, tpl.Transaction = some msg →
          msg.Inputs.length < tpl.SigningInstructions.length →
          materializeWitnesses env tpl
            = some (tpl, some (Error.annotated Error.ErrBadInstructionCount Note.stack)))
      ∧ (∀ tpl1 e, materializeWitnesses env tpl = some (tpl1, some e) →
          (e.root = Error.ErrMissingRawTx ↔ tpl.Transaction = none)
            ∧ (e.root = Error.ErrBadInstructionCount ↔
                ∃ msg, tpl.Transaction = some msg
                  ∧ msg.Inputs.length < tpl.SigningInstructions.length)) := by
  refine ⟨fun h => ?_, fun msg h hlen => ?_, fun tpl1 e h => ?_⟩
  · simp only [materializeWitnesses, h]
  · simp only [materializeWitnesses, h, if_pos hlen]
  · cases htx : tpl.Transaction with
    | none =>
      simp only [materializeWitnesses, htx, Option.some.injEq, Prod.mk.injEq] at h
      rw [← h.2]
      simp [Error.root]
    | some msg =>
      by_cases hlen : msg.Inputs.length < tpl.SigningInstructions.length
      · simp only [materializeWitnesses, htx, if_pos hlen, Option.some.injEq,
          Prod.mk.injEq] at h
        rw [← h.2]
        simp [Error.root, hlen]
      · simp only [materializeWitnesses, htx, if_neg hlen] at h
        split at h
        · exact Option.noConfusion h
        · rename_i msg1 e1 hloop
          simp only [Option.some.injEq, Prod.mk.injEq] at h
          rw [h.2] at hloop
          have hroot := materializeLoop_error_root env tpl _ _ _ _ _ hloop
          constructor
          · constructor
            · intro he
              rcases hroot with hr | ⟨code, hr⟩ <;> rw [hr] at he <;> exact Error.noConfusion he
            · intro hn; exact Option.noConfusion hn
          · constructor
            · intro he
              rcases hroot with hr | ⟨code, hr⟩ <;> rw [hr] at he <;> exact Error.noConfusion he
            · rintro ⟨msg2, hm, hl⟩
              rw [Option.some.inj hm] at hlen
              exact absurd hl hlen

/-- Witness of `materializeWitnesses_prechecks`: one input and two
instructions give `ErrBadInstructionCount` and leave the template as it
was. -/
theorem materializeWitnesses_prechecks_witness :
    materializeWitnesses toyEnv twoInstructionsTemplate
      = some (twoInstructionsTemplate,
          some (Error.annotated Error.ErrBadInstructionCount Note.stack)) :=
  (materializeWitnesses_prechecks toyEnv twoInstructionsTemplate).2.1
    { Inputs := [some spendInput], Outputs := [], MaxTime := 0 } rfl (by decide)

/-! ## Lemmas on `indexSig` and the loop of `Materialize` -/

theorem indexSigFrom_none (env : Env) (key msg : Bytes) :
    ∀ (sigs : List Bytes) (i : Nat),
      sigs.find? (fun sig => env.Verify key msg sig) = none →
      indexSigFrom env key msg i sigs = -1 := by
  intro sigs
  induction sigs with
  | nil => intro i _; rfl
  | cons sig rest ih =>
    intro i h
    rw [List.find?_cons] at h
    split at h
    · exact Option.noConfusion h
    · rename_i hv
      simp only [indexSigFrom, hv]
      exact ih _ h

theorem indexSigFrom_some (env : Env) (key msg : Bytes) :
    ∀ (sigs : List Bytes) (i : Nat) (s : Bytes),
      sigs.find? (fun sig => env.Verify key msg sig) = some s →
      ∃ k : Nat, indexSigFrom env key msg i sigs = ((i + k : Nat) : Int) ∧ sigs[k]? = some s := by
  intro sigs
  induction sigs with
  | nil => intro i s h; exact Option.noConfusion h
  | cons sig rest ih =>
    intro i s h
    rw [List.find?_cons] at h
    split at h
    · rename_i hv
      refine ⟨0, ?_, ?_⟩
      · simp only [indexSigFrom, hv, if_true, Nat.add_zero]
      · simpa using Option.some.inj h
    · rename_i hv
      obtain ⟨k, hk, hs⟩ := ih (i + 1) s h
      refine ⟨k + 1, ?_, ?_⟩
      · simp only [indexSigFrom, hv, Bool.false_eq_true, if_false]
        rw [hk]
        congr 1
        omega
      · simpa using hs

/-- The index returned by `indexSig` is `-1` or the index of an entry of
`sigs`: the read `sw.Sigs[k]` in `Materialize` is in range. -/
theorem indexSig_in_range (env : Env) (key msg : Bytes) (sigs : List Bytes) :
    indexSig env key msg sigs = -1
      ∨ (0 ≤ indexSig env key msg sigs ∧ (indexSig env key msg sigs).toNat < sigs.length) := by
  cases hf : sigs.find? (fun sig => env.Verify key msg sig) with
  | none => left; exact indexSigFrom_none env key msg sigs 0 hf
  | some s =>
    right
    obtain ⟨k, hk, hs⟩ := indexSigFrom_some env key msg sigs 0 s hf
    have hlt : k < sigs.length := by
      by_contra hc
      rw [List.getElem?_eq_none (by omega)] at hs
      exact Option.noConfusion hs
    unfold indexSig
    rw [hk]
    constructor
    · exact Int.natCast_nonneg _
    · rw [Int.toNat_natCast]; omega

/-- One turn of the loop of `Materialize` appends the first verifying
entry of `sw.Sigs` for the key, if there is one. -/
theorem collectSigs_cons (env : Env) (h : Bytes) (swSigs : List Bytes) (quorum : Nat)
    (key : Bytes) (rest sigs : List Bytes) (hlt : sigs.length < quorum) :
    collectSigs env h swSigs quorum (key :: rest) sigs
      = collectSigs env h swSigs quorum rest
          (sigs ++ (swSigs.find? fun sig => env.Verify key h sig).toList) := by
  simp only [collectSigs, if_pos hlt]
  cases hf : swSigs.find? (fun sig => env.Verify key h sig) with
  | none =>
    have hk : indexSig env key h swSigs = -1 := indexSigFrom_none env key h swSigs 0 hf
    rw [hk]
    simp
  | some s =>
    obtain ⟨k, hk, hs⟩ := indexSigFrom_some env key h swSigs 0 s hf
    have hk2 : indexSig env key h swSigs = (k : Int) := by
      unfold indexSig; rw [hk]; congr 1; omega
    rw [hk2]
    simp only [Int.natCast_nonneg, if_true, Int.toNat_natCast, Option.toList]
    rw [List.getD_eq_getElem?_getD, hs]
    rfl

/-- The loop of `Materialize` extends the collected vector by the first
verifying signatures of the remaining pubkeys, up to `quorum` in all. -/
theorem collectSigs_eq (env : Env) (h : Bytes) (swSigs : List Bytes) (quorum : Nat) :
    ∀ (pubkeys sigs : List Bytes),
      collectSigs env h swSigs quorum pubkeys sigs
        = sigs ++ ((pubkeys.filterMap fun key =>
            swSigs.find? fun sig => env.Verify key h sig).take (quorum - sigs.length)) := by
  intro pubkeys
  induction pubkeys with
  | nil => intro sigs; simp [collectSigs]
  | cons key rest ih =>
    intro sigs
    by_cases hlt : sigs.length < quorum
    · rw [collectSigs_cons env h swSigs quorum key rest sigs hlt, ih]
      cases hf : swSigs.find? (fun sig => env.Verify key h sig) with
      | none => simp [List.filterMap_cons, hf]
      | some s =>
        have hq : quorum - sigs.length = (quorum - (sigs.length + 1)) + 1 := by omega
        simp only [List.filterMap_cons, hf, Option.toList, List.length_append,
          List.length_singleton, List.append_assoc, List.singleton_append]
        rw [hq, List.take_succ_cons]
    · have hz : quorum - sigs.length = 0 := by omega
      simp only [collectSigs, if_neg hlt, hz, List.take_zero, List.append_nil]

/-- The result of `Materialize` on a present input whose program parses. -/
theorem Materialize_eq_reference (env : Env) (sw : SignatureWitness) (tpl : Template)
    (index : Int) (tx : TxData) (input : TxInput) (pubkeys : List Bytes) (quorum : Nat)
    (htx : tpl.Transaction = some tx) (hin : sliceAt tx.Inputs index = some (some input))
    (hparse : env.ParseP2DPMultiSigProgram (governingProgram input) = .ok (pubkeys, quorum)) :
    sw.Materialize env tpl index = Res.ok (referenceWitness env sw pubkeys quorum) := by
  simp only [SignatureWitness.Materialize, htx, hin, hparse, referenceWitness,
    collectSigs_eq, List.nil_append, List.length_nil, Nat.sub_zero]

/-- The signatures found by the reference walk are the first verifying
signatures of the matching pubkeys, in the same order. -/
theorem found_eq_map_matching (env : Env) (sw : SignatureWitness) :
    ∀ pubkeys : List Bytes,
      (pubkeys.filterMap fun key =>
          sw.Sigs.find? fun sig => env.Verify key (env.sha3 sw.Program) sig)
        = (matchingKeys env sw pubkeys).map fun key =>
            (sw.Sigs.find? fun sig => env.Verify key (env.sha3 sw.Program) sig).getD [] := by
  intro pubkeys
  induction pubkeys with
  | nil => rfl
  | cons key rest ih =>
    unfold matchingKeys at ih ⊢
    cases hf : sw.Sigs.find? (fun sig => env.Verify key (env.sha3 sw.Program) sig) with
    | none =>
      have hany : (sw.Sigs.any fun sig => env.Verify key (env.sha3 sw.Program) sig) = false := by
        rw [List.any_eq_false]
        intro x hx
        have := List.find?_eq_none.mp hf x hx
        simpa using this
      rw [List.filterMap_cons, hf, List.filter_cons, hany]
      simpa using ih
    | some s =>
      have hany : (sw.Sigs.any fun sig => env.Verify key (env.sha3 sw.Program) sig) = true := by
        rw [List.any_eq_true]
        exact ⟨s, List.mem_of_find?_eq_some hf, List.find?_some hf⟩
      rw [List.filterMap_cons, hf, List.filter_cons, hany]
      simp only [if_true, List.map_cons, hf, Option.getD_some]
      rw [ih]

/-- A matching pubkey has a first verifying signature in `Sigs`. -/
theorem matchingKeys_found (env : Env) (sw : SignatureWitness) (pubkeys : List Bytes)
    (key : Bytes) (hmem : key ∈ matchingKeys env sw pubkeys) :
    ∃ sig, (sw.Sigs.find? fun sig => env.Verify key (env.sha3 sw.Program) sig) = some sig
      ∧ sig ∈ sw.Sigs ∧ env.Verify key (env.sha3 sw.Program) sig = true := by
  unfold matchingKeys at hmem
  have hany := (List.mem_filter.mp hmem).2
  cases hf : sw.Sigs.find? (fun sig => env.Verify key (env.sha3 sw.Program) sig) with
  | none =>
    rw [List.any_eq_true] at hany
    obtain ⟨x, hx, hv⟩ := hany
    have := List.find?_eq_none.mp hf x hx
    exact absurd hv (by simpa using this)
  | some s => exact ⟨s, rfl, List.mem_of_find?_eq_some hf, List.find?_some hf⟩

/-! ## Theorems on `SignatureWitness.Materialize` -/

/-- C8: at quorum, that is when at least `quorum` of the pubkeys parsed from
the input's program have a verifying signature in `Sigs`, `Materialize`
returns `quorum + 1` items, the last one is `Program`, and for each
`j < quorum` item `j` is an entry of `Sigs` that verifies for the `j`-th
pubkey, in declaration order, among those that have a verifying
signature. -/
theorem Materialize_at_quorum (env : Env) (sw : SignatureWitness) (tpl : Template)
    (index : Int) (tx : TxData) (input : TxInput) (pubkeys : List Bytes) (quorum : Nat)
    (htx : tpl.Transaction = some tx) (hin : sliceAt tx.Inputs index = some (some input))
    (hparse : env.ParseP2DPMultiSigProgram (governingProgram input) = .ok (pubkeys, quorum))
    (hquorum : quorum ≤ (matchingKeys env sw pubkeys).length) :
    ∃ out, sw.Materialize env tpl index = Res.ok out
      ∧ out.length = quorum + 1
      ∧ out.getLast? = some sw.Program
      ∧ ∀ j, j < quorum →
          ∃ key sig, (matchingKeys env sw pubkeys)[j]? = some key ∧ out[j]? = some sig
            ∧ sig ∈ sw.Sigs ∧ env.Verify key (env.sha3 sw.Program) sig = true := by
  refine ⟨_, Materialize_eq_reference env sw tpl index tx input pubkeys quorum htx hin hparse,
    ?_, ?_, ?_⟩
  · unfold referenceWitness
    rw [found_eq_map_matching, List.length_append, List.length_take, List.length_map,
      List.length_singleton]
    omega
  · unfold referenceWitness
    simp
  · intro j hj
    have hjm : j < (matchingKeys env sw pubkeys).length := by omega
    obtain ⟨sig, hfind, hmem, hver⟩ := matchingKeys_found env sw pubkeys
      ((matchingKeys env sw pubkeys)[j]) (List.getElem_mem hjm)
    refine ⟨(matchingKeys env sw pubkeys)[j], sig, List.getElem?_eq_getElem hjm, ?_, hmem, hver⟩
    unfold referenceWitness
    rw [found_eq_map_matching]
    have hlen : j < (List.take quorum ((matchingKeys env sw pubkeys).map fun key =>
        (sw.Sigs.find? fun sig => env.Verify key (env.sha3 sw.Program) sig).getD [])).length := by
      rw [List.length_take, List.length_map]; omega
    rw [List.getElem?_append_left hlen, List.getElem?_take_of_lt hj, List.getElem?_map,
      List.getElem?_eq_getElem hjm, Option.map_some', hfind, Option.getD_some]

/-- Witness of `Materialize_at_quorum`: scenario S3, two of the three
pubkeys have a signature and the quorum is 2. -/
theorem Materialize_at_quorum_witness :
    2 ≤ (matchingKeys toyEnv twoOfThree [[65], [66], [67]]).length
      ∧ ∃ out, twoOfThree.Materialize toyEnv spendTemplate 0 = Res.ok out
        ∧ out.length = 2 + 1
        ∧ out.getLast? = some twoOfThree.Program
        ∧ ∀ j, j < 2 →
            ∃ key sig, (matchingKeys toyEnv twoOfThree [[65], [66], [67]])[j]? = some key
              ∧ out[j]? = some sig ∧ sig ∈ twoOfThree.Sigs
              ∧ toyEnv.Verify key (toyEnv.sha3 twoOfThree.Program) sig = true :=
  ⟨by decide,
    Materialize_at_quorum toyEnv twoOfThree spendTemplate 0
      { Inputs := [some spendInput], Outputs := [], MaxTime := 0 } spendInput
      [[65], [66], [67]] 2 rfl rfl rfl (by decide)⟩

/-- C9: on a present input whose governing program parses to
`(pubkeys, quorum)`, `Materialize` returns the reference list: the first
verifying entries of `Sigs` for the pubkeys taken in declaration order,
pubkeys without one skipped, at most `quorum` of them, then `Program`. -/
theorem Materialize_refines_reference (env : Env) (sw : SignatureWitness) (tpl : Template)
    (index : Int) (tx : TxData) (input : TxInput) (pubkeys : List Bytes) (quorum : Nat)
    (htx : tpl.Transaction = some tx) (hin : sliceAt tx.Inputs index = some (some input))
    (hparse : env.ParseP2DPMultiSigProgram
      (if input.IsIssuance then input.IssuanceProgram else input.ControlProgram)
        = .ok (pubkeys, quorum)) :
    sw.Materialize env tpl index
      = Res.ok (((pubkeys.filterMap fun key =>
          sw.Sigs.find? fun sig => env.Verify key (env.sha3 sw.Program) sig).take quorum)
            ++ [sw.Program])
      ∧ sw.Materialize env tpl index = Res.ok (referenceWitness env sw pubkeys quorum) :=
  ⟨Materialize_eq_reference env sw tpl index tx input pubkeys quorum htx hin hparse,
    Materialize_eq_reference env sw tpl index tx input pubkeys quorum htx hin hparse⟩

/-- Witness of `Materialize_refines_reference`: scenario S3, with
`Sigs = [s1, "", s3]` and a 2-of-3 program the result is `[s1, s3, Program]`. -/
theorem Materialize_refines_reference_witness :
    twoOfThree.Materialize toyEnv spendTemplate 0 = Res.ok [[65, 5], [67, 5], [5]]
      ∧ referenceWitness toyEnv twoOfThree [[65], [66], [67]] 2 = [[65, 5], [67, 5], [5]] :=
  ⟨(Materialize_refines_reference toyEnv twoOfThree spendTemplate 0
      { Inputs := [some spendInput], Outputs := [], MaxTime := 0 } spendInput
      [[65], [66], [67]] 2 rfl rfl rfl).1.trans (by decide),
    by decide⟩

/-- C10: on a present input, `Materialize` returns an error exactly when the
multisig parser fails on the input's governing program (the issuance
program of an issuance input, the control program otherwise), and it does
not panic; when the parser succeeds and fewer than `quorum` pubkeys have a
verifying signature, it succeeds with fewer than `quorum` signatures
followed by `Program`. -/
theorem Materialize_error_iff (env : Env) (sw : SignatureWitness) (tpl : Template)
    (index : Int) (tx : TxData) (input : TxInput)
    (htx : tpl.Transaction = some tx) (hin : sliceAt tx.Inputs index = some (some input)) :
    ((∃ e, sw.Materialize env tpl index = Res.err e) ↔
        ∃ code, env.ParseP2DPMultiSigProgram
          (if input.IsIssuance then input.IssuanceProgram else input.ControlProgram)
            = .error code)
      ∧ sw.Materialize env tpl index ≠ Res.panic
      ∧ ∀ pubkeys quorum,
          env.ParseP2DPMultiSigProgram
            (if input.IsIssuance then input.IssuanceProgram else input.ControlProgram)
              = .ok (pubkeys, quorum) →
          (matchingKeys env sw pubkeys).length < quorum →
          ∃ sigs, sw.Materialize env tpl index = Res.ok (sigs ++ [sw.Program])
            ∧ sigs.length < quorum
            ∧ sigs.length = (matchingKeys env sw pubkeys).length := by
  cases hparse : env.ParseP2DPMultiSigProgram (governingProgram input) with
  | error code =>
    have hm : sw.Materialize env tpl index
        = Res.err (Error.annotated (Error.parser code) Note.parsingInputProgramScript) := by
      simp only [SignatureWitness.Materialize, htx, hin, hparse]
    unfold governingProgram at hparse
    rw [hm, hparse]
    refine ⟨⟨fun _ => ⟨code, rfl⟩, fun _ => ⟨_, rfl⟩⟩, fun h => Res.noConfusion h, ?_⟩
    intro pubkeys quorum h
    exact Except.noConfusion h
  | ok r =>
    obtain ⟨pubkeys, quorum⟩ := r
    have hm := Materialize_eq_reference env sw tpl index tx input pubkeys quorum htx hin hparse
    unfold governingProgram at hparse
    rw [hm, hparse]
    refine ⟨⟨?_, ?_⟩, fun h => Res.noConfusion h, ?_⟩
    · rintro ⟨e, he⟩; exact Res.noConfusion he
    · rintro ⟨code, hc⟩; exact Except.noConfusion hc
    · intro pubkeys1 quorum1 h hlt
      injection h with h
      injection h with h1 h2
      subst h1 h2
      refine ⟨_, rfl, ?_, ?_⟩
      · rw [found_eq_map_matching, List.length_take, List.length_map]; omega
      · rw [found_eq_map_matching, List.length_take, List.length_map]; omega

/-- Witness of `Materialize_error_iff`: with only the signature of `C` and a
2-of-3 program, `Materialize` succeeds with one signature and the program. -/
theorem Materialize_error_iff_witness :
    (matchingKeys toyEnv oneOfThree [[65], [66], [67]]).length < 2
      ∧ ∃ sigs, oneOfThree.Materialize toyEnv spendTemplate 0
          = Res.ok (sigs ++ [oneOfThree.Program])
        ∧ sigs.length < 2
        ∧ sigs.length = (matchingKeys toyEnv oneOfThree [[65], [66], [67]]).length :=
  ⟨by decide,
    (Materialize_error_iff toyEnv oneOfThree spendTemplate 0
      { Inputs := [some spendInput], Outputs := [], MaxTime := 0 } spendInput rfl rfl).2.2
      [[65], [66], [67]] 2 rfl (by decide)⟩

/-! ## The signing loop, slot by slot -/

theorem getD_set_ne (s : List Bytes) (i j : Nat) (b : Bytes) (h : i ≠ j) :
    (s.set i b).getD j [] = s.getD j [] := by
  rw [List.getD_eq_getElem?_getD, List.getD_eq_getElem?_getD, List.getElem?_set_ne h]

theorem getElem?_eq_some_getD (s : List Bytes) (i : Nat) (h : i < s.length) :
    s[i]? = some (s.getD i []) := by
  rw [List.getD_eq_getElem?_getD, List.getElem?_eq_getElem h]
  rfl

/-- The loop of `Sign` started at index `i` passes the first `n` of the
remaining keys and settles their slots, leaves every slot from `i + n` on
as it was, and either has passed all keys and returns no error, or stops at
key `n`, whose slot is empty and whose xpub is available, with the error of
the signer annotated with the index `i + n`. -/
theorem signKeys_run (xpubs : List String) (signFn : SignFn) (h : Bytes) :
    ∀ (ks : List KeyID) (i : Nat) (s : List Bytes), i + ks.length ≤ s.length →
      ∃ n, n ≤ ks.length
        ∧ (∀ m key, m < n → ks[m]? = some key →
            ∃ new, (signKeys xpubs signFn h i ks s).1[i + m]? = some new
              ∧ SlotSettled xpubs signFn h key (s.getD (i + m) []) new)
        ∧ (∀ j, i + n ≤ j → (signKeys xpubs signFn h i ks s).1[j]? = s[j]?)
        ∧ (((signKeys xpubs signFn h i ks s).2 = none ∧ n = ks.length)
            ∨ ∃ key e0, ks[n]? = some key
                ∧ (signKeys xpubs signFn h i ks s).2
                  = some (Error.annotated e0 (Note.computingSignature (i + n)))
                ∧ (s.getD (i + n) []).length = 0
                ∧ contains xpubs key.XPub = true
                ∧ signFn key.XPub key.DerivationPath h = .error e0) := by
  intro ks
  induction ks with
  | nil =>
    intro i s _
    exact ⟨0, Nat.le_refl _, fun m key hm _ => absurd hm (Nat.not_lt_zero m),
      fun j _ => rfl, Or.inl ⟨rfl, rfl⟩⟩
  | cons k ks ih =>
    intro i s hlen
    have hi : i < s.length := by simp only [List.length_cons] at hlen; omega
    have hlen1 : i + 1 + ks.length ≤ s.length := by
      simp only [List.length_cons] at hlen; omega
    -- the two turns that leave the slot alone
    have skip : signKeys xpubs signFn h i (k :: ks) s = signKeys xpubs signFn h (i + 1) ks s →
        SlotSettled xpubs signFn h k (s.getD i []) (s.getD i []) →
        ∃ n, n ≤ (k :: ks).length
          ∧ (∀ m key, m < n → (k :: ks)[m]? = some key →
              ∃ new, (signKeys xpubs signFn h i (k :: ks) s).1[i + m]? = some new
                ∧ SlotSettled xpubs signFn h key (s.getD (i + m) []) new)
          ∧ (∀ j, i + n ≤ j → (signKeys xpubs signFn h i (k :: ks) s).1[j]? = s[j]?)
          ∧ (((signKeys xpubs signFn h i (k :: ks) s).2 = none ∧ n = (k :: ks).length)
              ∨ ∃ key e0, (k :: ks)[n]? = some key
                  ∧ (signKeys xpubs signFn h i (k :: ks) s).2
                    = some (Error.annotated e0 (Note.computingSignature (i + n)))
                  ∧ (s.getD (i + n) []).length = 0
                  ∧ contains xpubs key.XPub = true
                  ∧ signFn key.XPub key.DerivationPath h = .error e0) := by
      intro e1 hset
      obtain ⟨n, hn, hpre, hframe, hend⟩ := ih (i + 1) s hlen1
      rw [e1]
      refine ⟨n + 1, by simp only [List.length_cons]; omega, ?_, ?_, ?_⟩
      · intro m key hm hkey
        cases m with
        | zero =>
          simp only [List.getElem?_cons_zero, Option.some.injEq] at hkey
          subst hkey
          refine ⟨s.getD i [], ?_, hset⟩
          show (signKeys xpubs signFn h (i + 1) ks s).1[i]? = some (s.getD i [])
          rw [signKeys_below xpubs signFn h ks (i + 1) s i (Nat.lt_succ_self i)]
          exact getElem?_eq_some_getD s i hi
        | succ m =>
          simp only [List.getElem?_cons_succ] at hkey
          have := hpre m key (by omega) hkey
          rw [show i + (m + 1) = i + 1 + m by omega]
          exact this
      · intro j hj
        exact hframe j (by omega)
      · rcases hend with ⟨hnone, hn2⟩ | ⟨key, e0, hkey, herr, hempty, hcont, hsig⟩
        · exact Or.inl ⟨hnone, by simp only [List.length_cons]; omega⟩
        · refine Or.inr ⟨key, e0, by simpa using hkey, ?_, ?_, hcont, hsig⟩
          · rw [herr, show i + 1 + n = i + (n + 1) by omega]
          · rw [show i + (n + 1) = i + 1 + n by omega]; exact hempty
    by_cases h1 : 0 < (s.getD i []).length
    · apply skip
      · simp only [signKeys, if_pos h1]
      · exact ⟨fun _ => rfl, fun h0 => absurd h0 (by omega), fun h0 => absurd h0 (by omega)⟩
    · by_cases h3 : (!contains xpubs k.XPub) = true
      · apply skip
        · simp only [signKeys, if_neg h1, if_pos h3]
        · refine ⟨fun h0 => absurd h0 h1, fun _ hc => ?_, fun h0 _ => ?_⟩
          · rw [hc] at h3; exact absurd h3 (by decide)
          · exact List.length_eq_zero.mp h0
      · have hc : contains xpubs k.XPub = true := by
          cases hcc : contains xpubs k.XPub with
          | true => rfl
          | false => rw [hcc] at h3; exact absurd rfl h3
        cases hs : signFn k.XPub k.DerivationPath h with
        | error e =>
          have e1 : signKeys xpubs signFn h i (k :: ks) s
              = (s, some (Error.annotated e (Note.computingSignature i))) := by
            simp only [signKeys, if_neg h1, if_neg h3, hs]
          rw [e1]
          refine ⟨0, Nat.zero_le _, fun m key hm _ => absurd hm (Nat.not_lt_zero m),
            fun j _ => rfl, Or.inr ⟨k, e, List.getElem?_cons_zero, rfl,
              by show (s.getD i []).length = 0; omega, hc, hs⟩⟩
        | ok sigBytes =>
          have e1 : signKeys xpubs signFn h i (k :: ks) s
              = signKeys xpubs signFn h (i + 1) ks (s.set i sigBytes) := by
            simp only [signKeys, if_neg h1, if_neg h3, hs]
          obtain ⟨n, hn, hpre, hframe, hend⟩ :=
            ih (i + 1) (s.set i sigBytes) (by rw [List.length_set]; exact hlen1)
          rw [e1]
          refine ⟨n + 1, by simp only [List.length_cons]; omega, ?_, ?_, ?_⟩
          · intro m key hm hkey
            cases m with
            | zero =>
              simp only [List.getElem?_cons_zero, Option.some.injEq] at hkey
              subst hkey
              refine ⟨sigBytes, ?_, fun h0 => absurd h0 h1, fun _ _ => hs, fun _ hf => ?_⟩
              · show (signKeys xpubs signFn h (i + 1) ks (s.set i sigBytes)).1[i]?
                    = some sigBytes
                rw [signKeys_below xpubs signFn h ks (i + 1) _ i (Nat.lt_succ_self i),
                  List.getElem?_set_self hi]
              · rw [hc] at hf; exact absurd hf (by decide)
            | succ m =>
              simp only [List.getElem?_cons_succ] at hkey
              have := hpre m key (by omega) hkey
              rw [getD_set_ne s i (i + 1 + m) sigBytes (by omega)] at this
              rw [show i + (m + 1) = i + 1 + m by omega]
              exact this
          · intro j hj
            rw [hframe j (by omega), List.getElem?_set_ne (by omega)]
          · rcases hend with ⟨hnone, hn2⟩ | ⟨key, e0, hkey, herr, hempty, hcont, hsig⟩
            · exact Or.inl ⟨hnone, by simp only [List.length_cons]; omega⟩
            · refine Or.inr ⟨key, e0, by simpa using hkey, ?_, ?_, hcont, hsig⟩
              · rw [herr, show i + 1 + n = i + (n + 1) by omega]
              · rw [show i + (n + 1) = i + 1 + n by omega,
                  ← getD_set_ne s i (i + 1 + n) sigBytes (by omega)]
                exact hempty

theorem growSigs_getD (s : List Bytes) (n i : Nat) :
    (growSigs s n).getD i [] = s.getD i [] := by
  unfold growSigs
  split
  · rw [List.getD_eq_getElem?_getD, List.getD_eq_getElem?_getD]
    by_cases hi : i < s.length
    · rw [List.getElem?_append_left hi]
    · rw [List.getElem?_append_right (by omega), List.getElem?_eq_none (l := s) (by omega),
        List.getElem?_replicate]
      split <;> rfl
  · rfl

/-- The two ways in which `Sign` returns: with `ErrEmptyProgram` and the
component as it was, or with the result of the slot loop run on the
component whose program `p` is non-empty: the program it had, or the one
`buildSigProgram` inferred when it had none. -/
theorem Sign_cases (env : Env) (sw : SignatureWitness) (tpl : Template) (index : Int)
    (xpubs : List String) (signFn : SignFn) (sw1 : SignatureWitness) (err : Option Error)
    (hcall : sw.Sign env tpl index xpubs signFn = some (sw1, err)) :
    (sw.Program.length = 0 ∧ buildSigProgram env tpl index = some [] ∧ sw1 = sw
        ∧ err = some Error.ErrEmptyProgram)
      ∨ ∃ p : Bytes, 0 < p.length
          ∧ (0 < sw.Program.length → p = sw.Program)
          ∧ (sw.Program.length = 0 → buildSigProgram env tpl index = some p)
          ∧ ({ sw with Program := p } : SignatureWitness).signSlots env xpubs signFn
            = (sw1, err) := by
  unfold SignatureWitness.Sign at hcall
  by_cases hp : sw.Program.length = 0
  · rw [if_pos hp] at hcall
    cases hbp : buildSigProgram env tpl index with
    | none => rw [hbp] at hcall; exact Option.noConfusion hcall
    | some p =>
      rw [hbp] at hcall
      by_cases hq : p.length = 0
      · simp only [if_pos hq, Option.some.injEq, Prod.mk.injEq] at hcall
        left
        have hp0 : p = [] := List.length_eq_zero.mp hq
        have hs0 : sw.Program = [] := List.length_eq_zero.mp hp
        refine ⟨hp, by rw [hp0], ?_, hcall.2.symm⟩
        rw [← hcall.1, hp0, ← hs0]
      · simp only [if_neg hq, Option.some.injEq] at hcall
        right
        exact ⟨p, by omega, fun h0 => absurd hp (by omega), fun _ => rfl, hcall⟩
  · simp only [if_neg hp, Option.some.injEq] at hcall
    right
    exact ⟨sw.Program, by omega, fun _ => rfl, fun h0 => absurd h0 hp, hcall⟩

/-! ## Theorems on the slots written by `Sign` -/

/-- C11: when `Sign` succeeds, `Keys` is unchanged and for every
`i < len(Keys)` slot `i` of the resulting `Sigs` is the old slot if that
was non-empty (an absent slot counts as empty), otherwise the bytes the
signer returned for `Keys[i]` and the hash of the resulting `Program` if the
xpub of `Keys[i]` is available, otherwise empty. -/
theorem Sign_success_slots (env : Env) (sw : SignatureWitness) (tpl : Template) (index : Int)
    (xpubs : List String) (signFn : SignFn) (sw1 : SignatureWitness)
    (hcall : sw.Sign env tpl index xpubs signFn = some (sw1, none)) :
    sw1.Keys = sw.Keys
      ∧ ∀ i key, sw.Keys[i]? = some key →
          ∃ new, sw1.Sigs[i]? = some new
            ∧ (0 < (sw.Sigs.getD i []).length → new = sw.Sigs.getD i [])
            ∧ ((sw.Sigs.getD i []).length = 0 → contains xpubs key.XPub = true →
                signFn key.XPub key.DerivationPath (env.sha3 sw1.Program) = .ok new)
            ∧ ((sw.Sigs.getD i []).length = 0 → contains xpubs key.XPub = false →
                new = []) := by
  rcases Sign_cases env sw tpl index xpubs signFn sw1 none hcall with
    ⟨_, _, _, herr⟩ | ⟨p, _, _, _, hrun⟩
  · exact Option.noConfusion herr
  · simp only [SignatureWitness.signSlots, Prod.mk.injEq] at hrun
    obtain ⟨hsw, herr⟩ := hrun
    obtain ⟨n, _, hpre, _, hend⟩ := signKeys_run xpubs signFn (env.sha3 p) sw.Keys 0
      (growSigs sw.Sigs sw.Keys.length) (by rw [growSigs_length]; omega)
    have hn : n = sw.Keys.length := by
      rcases hend with ⟨_, hn⟩ | ⟨_, _, _, he, _⟩
      · exact hn
      · rw [herr] at he; exact Option.noConfusion he
    have hprog : sw1.Program = p := by rw [← hsw]
    have hsigs : sw1.Sigs = (signKeys xpubs signFn (env.sha3 p) 0 sw.Keys
        (growSigs sw.Sigs sw.Keys.length)).1 := by rw [← hsw]
    refine ⟨by rw [← hsw], fun i key hkey => ?_⟩
    have hi : i < n := by
      rw [hn]
      by_contra hc
      rw [List.getElem?_eq_none (by omega)] at hkey
      exact Option.noConfusion hkey
    obtain ⟨new, hnew, hset⟩ := hpre i key hi hkey
    rw [Nat.zero_add, growSigs_getD] at hset
    rw [Nat.zero_add] at hnew
    rw [hprog, hsigs]
    exact ⟨new, hnew, hset⟩

/-- Witness of `Sign_success_slots`: scenario S3. The first `Sign` with
only `A` available gives `[s1, "", ""]`; the second one, with only `C`
available, gives `[s1, "", s3]`, whose slot 2 holds what the signer
returned for `C`. -/
theorem Sign_success_slots_witness :
    threeKeys.Sign toyEnv spendTemplate 0 ["A"] toySigner
        = some ({ threeKeys with Sigs := [[65, 5], [], []] }, none)
      ∧ ({ threeKeys with Sigs := [[65, 5], [], []] } : SignatureWitness).Sign toyEnv
          spendTemplate 0 ["C"] toySigner
        = some ({ threeKeys with Sigs := [[65, 5], [], [67, 5]] }, none)
      ∧ ∃ new, ({ threeKeys with Sigs := [[65, 5], [], [67, 5]] } : SignatureWitness).Sigs[2]?
            = some new
          ∧ toySigner keyC.XPub keyC.DerivationPath (toyEnv.sha3 [5]) = .ok new :=
  ⟨by decide, by decide,
    match (Sign_success_slots toyEnv { threeKeys with Sigs := [[65, 5], [], []] }
      spendTemplate 0 ["C"] toySigner { threeKeys with Sigs := [[65, 5], [], [67, 5]] }
      (by decide)).2 2 keyC rfl with
    | ⟨new, h1, _, h2, _⟩ => ⟨new, h1, h2 (by decide) (by decide)⟩⟩

/-- C12: when `Sign` returns an error other than `ErrEmptyProgram`, the
error is the one of the signer annotated with an index `i` such that the
slot of `Keys[i]` was empty, its xpub is available and the signer fails on
it; the slots before `i` hold what a successful `Sign` writes (so the signer
failed on none of them), every slot from `i` on is as before the call, and
`Program` is set: it is the old program if there was one and the inferred
one otherwise. -/
theorem Sign_signer_failure (env : Env) (sw : SignatureWitness) (tpl : Template) (index : Int)
    (xpubs : List String) (signFn : SignFn) (sw1 : SignatureWitness) (err : Error)
    (hcall : sw.Sign env tpl index xpubs signFn = some (sw1, some err))
    (hne : err ≠ Error.ErrEmptyProgram) :
    ∃ i key e0, sw.Keys[i]? = some key
      ∧ err = Error.annotated e0 (Note.computingSignature i)
      ∧ (sw.Sigs.getD i []).length = 0
      ∧ contains xpubs key.XPub = true
      ∧ signFn key.XPub key.DerivationPath (env.sha3 sw1.Program) = .error e0
      ∧ (∀ j keyj, j < i → sw.Keys[j]? = some keyj →
          ∃ new, sw1.Sigs[j]? = some new
            ∧ (0 < (sw.Sigs.getD j []).length → new = sw.Sigs.getD j [])
            ∧ ((sw.Sigs.getD j []).length = 0 → contains xpubs keyj.XPub = true →
                signFn keyj.XPub keyj.DerivationPath (env.sha3 sw1.Program) = .ok new)
            ∧ ((sw.Sigs.getD j []).length = 0 → contains xpubs keyj.XPub = false →
                new = []))
      ∧ (∀ j, i ≤ j → sw1.Sigs.getD j [] = sw.Sigs.getD j [])
      ∧ 0 < sw1.Program.length
      ∧ (0 < sw.Program.length → sw1.Program = sw.Program)
      ∧ (sw.Program.length = 0 → buildSigProgram env tpl index = some sw1.Program) := by
  rcases Sign_cases env sw tpl index xpubs signFn sw1 (some err) hcall with
    ⟨_, _, _, herr⟩ | ⟨p, hp, hold, hnew, hrun⟩
  · exact absurd (Option.some.inj herr) hne
  · simp only [SignatureWitness.signSlots, Prod.mk.injEq] at hrun
    obtain ⟨hsw, herr⟩ := hrun
    obtain ⟨n, _, hpre, hframe, hend⟩ := signKeys_run xpubs signFn (env.sha3 p) sw.Keys 0
      (growSigs sw.Sigs sw.Keys.length) (by rw [growSigs_length]; omega)
    have hprog : sw1.Program = p := by rw [← hsw]
    have hsigs : sw1.Sigs = (signKeys xpubs signFn (env.sha3 p) 0 sw.Keys
        (growSigs sw.Sigs sw.Keys.length)).1 := by rw [← hsw]
    rcases hend with ⟨hnone, _⟩ | ⟨key, e0, hkey, he, hempty, hcont, hsig⟩
    · rw [herr] at hnone; exact Option.noConfusion hnone
    · rw [herr, Nat.zero_add] at he
      rw [Nat.zero_add, growSigs_getD] at hempty
      rw [hprog, hsigs]
      refine ⟨n, key, e0, hkey, Option.some.inj he, hempty, hcont, hsig, ?_, ?_, hp, hold,
        hnew⟩
      · intro j keyj hj hkeyj
        obtain ⟨new, hnew, hset⟩ := hpre j keyj hj hkeyj
        rw [Nat.zero_add, growSigs_getD] at hset
        rw [Nat.zero_add] at hnew
        exact ⟨new, hnew, hset⟩
      · intro j hj
        rw [List.getD_eq_getElem?_getD, hframe j (by omega), ← List.getD_eq_getElem?_getD,
          growSigs_getD]

/-- Witness of `Sign_signer_failure`: scenario S4. The signer fails on the
second key; `Sign` returns its error annotated with index 1, slot 0 holds
the signature of `A` and slots 1 and 2 are empty. -/
theorem Sign_signer_failure_witness :
    middleKeyFails.Sign toyEnv spendTemplate 0 ["A", "bad", "C"] toySigner
        = some ({ middleKeyFails with Sigs := [[65, 5], [], []] },
            some (Error.annotated (Error.callback 9) (Note.computingSignature 1)))
      ∧ ∃ i key e0, middleKeyFails.Keys[i]? = some key
          ∧ Error.annotated (Error.callback 9) (Note.computingSignature 1)
            = Error.annotated e0 (Note.computingSignature i)
          ∧ ∀ j, i ≤ j →
              ({ middleKeyFails with Sigs := [[65, 5], [], []] } : SignatureWitness).Sigs.getD j []
                = middleKeyFails.Sigs.getD j [] :=
  ⟨by decide,
    match Sign_signer_failure toyEnv middleKeyFails spendTemplate 0 ["A", "bad", "C"]
      toySigner { middleKeyFails with Sigs := [[65, 5], [], []] }
      (Error.annotated (Error.callback 9) (Note.computingSignature 1)) (by decide)
      (by decide) with
    | ⟨i, key, e0, h1, h2, _, _, _, _, h7, _⟩ => ⟨i, key, e0, h1, h2, h7⟩⟩

/-! ## Theorems on `buildSigProgram` -/

theorem payConstraints_eq_map (env : Env) (outs : List TxOutput) :
    payConstraints env outs = outs.map fun out =>
      constraint.payConstraint out.AssetAmount out.ControlProgram
        (if out.ReferenceData ≠ [] then some (env.sha3 out.ReferenceData) else none) := by
  induction outs with
  | nil => rfl
  | cons out rest ih =>
    simp only [payConstraints, List.map_cons, ih]
    congr 2
    by_cases h : out.ReferenceData = []
    · simp [h]
    · rw [if_pos (List.length_pos.mpr h), if_pos h]

/-- The final loop of `buildSigProgram`, entered at index `i` with
`n - i` constraints left, appends their codes joined by `OP_VERIFY`. -/
theorem concatCodes_eq (env : Env) (n : Nat) :
    ∀ (cs : List constraint) (i : Nat) (program : Bytes), n = i + cs.length →
      concatCodes env n i cs program = program ++ joinWithVerify env (cs.map env.code) := by
  intro cs
  induction cs with
  | nil => intro i program _; simp [concatCodes, joinWithVerify]
  | cons c rest ih =>
    intro i program hn
    cases rest with
    | nil =>
      have hlt : ¬ ((i : Int) < (n : Int) - 1) := by
        simp only [List.length_cons, List.length_nil] at hn; omega
      simp only [concatCodes, if_neg hlt, List.map_cons, List.map_nil, joinWithVerify]
    | cons c2 rest2 =>
      have hlt : (i : Int) < (n : Int) - 1 := by
        simp only [List.length_cons] at hn; omega
      simp only [concatCodes, if_pos hlt]
      have hrec := ih (i + 1) (program ++ env.code c ++ [env.OP_VERIFY])
        (by simp only [List.length_cons] at hn ⊢; omega)
      simp only [concatCodes, List.map_cons] at hrec ⊢
      rw [hrec]
      simp only [joinWithVerify, List.append_assoc]

theorem joinWithVerify_length (env : Env) :
    ∀ codes : List Bytes,
      (joinWithVerify env codes).length = (codes.map List.length).sum + (codes.length - 1) := by
  intro codes
  induction codes with
  | nil => rfl
  | cons c rest ih =>
    cases rest with
    | nil => simp [joinWithVerify]
    | cons c2 rest2 =>
      simp only [joinWithVerify, List.length_append, List.length_cons, List.length_nil,
        List.map_cons, List.sum_cons] at ih ⊢
      omega

/-- C14: for a final template, whenever `tpl.Hash(index, SigHashAll)`
returns a hash `h`, `buildSigProgram` returns the builder output
`push(h) · push(1) · OP_TXSIGHASH · OP_EQUAL`; the transaction enters the
result only through `h`. -/
theorem buildSigProgram_final (env : Env) (tpl : Template) (index : Int) (h : Bytes)
    (hfinal : tpl.Final = true) (hhash : env.TemplateHash tpl index = some h) :
    buildSigProgram env tpl index
        = some (env.pushData h ++ env.pushInt64 1 ++ [env.OP_TXSIGHASH] ++ [env.OP_EQUAL])
      ∧ buildSigProgram env tpl index
        = some ((((NewBuilder.AddData env h).AddInt64 env 1).AddOp env.OP_TXSIGHASH).AddOp
            env.OP_EQUAL).Program := by
  constructor
  · simp only [buildSigProgram, hfinal, if_true, hhash, NewBuilder, Builder.AddData,
      Builder.AddInt64, Builder.AddOp, List.nil_append]
  · simp only [buildSigProgram, hfinal, if_true, hhash]

/-- Witness of `buildSigProgram_final`: on the sample final template the
hash is `[7]` and the program is `push([7]) · push(1) · 0xae · 0x87`. -/
theorem buildSigProgram_final_witness :
    buildSigProgram toyEnv finalTemplate 0
      = some (toyEnv.pushData [7] ++ toyEnv.pushInt64 1 ++ [toyEnv.OP_TXSIGHASH]
          ++ [toyEnv.OP_EQUAL]) :=
  (buildSigProgram_final toyEnv finalTemplate 0 [7] rfl rfl).1

/-- C15: for a non-final template with a present input at `index`,
`buildSigProgram` returns the codes of the applicable constraints, in the
order TTL, outpoint, reference data, PayTo per output, joined by one
`OP_VERIFY` between consecutive codes and none after the last; the joined
program is as long as the codes together plus `n - 1` separators. -/
theorem buildSigProgram_constraints (env : Env) (tpl : Template) (index : Int) (tx : TxData)
    (inp : TxInput) (hfinal : tpl.Final = false) (htx : tpl.Transaction = some tx)
    (hin : sliceAt tx.Inputs index = some (some inp)) :
    buildSigProgram env tpl index
        = some (joinWithVerify env ((applicableConstraints env tx inp).map env.code))
      ∧ (joinWithVerify env ((applicableConstraints env tx inp).map env.code)).length
        = (((applicableConstraints env tx inp).map env.code).map List.length).sum
          + ((applicableConstraints env tx inp).length - 1) := by
  constructor
  · have hcs : ((((if 0 < tx.MaxTime then [constraint.ttlConstraint tx.MaxTime] else [])
          |> fun cs => if (!inp.IsIssuance) = true then
              cs ++ [constraint.outpointConstraint inp.Outpoint] else cs)
          |> fun cs => if 0 < inp.ReferenceData.length then
              cs ++ [constraint.refdataConstraint inp.ReferenceData] else cs)
          ++ payConstraints env tx.Outputs)
        = applicableConstraints env tx inp := by
      unfold applicableConstraints
      rw [payConstraints_eq_map]
      cases hi : inp.IsIssuance <;> by_cases hr : inp.ReferenceData = [] <;>
        simp [hi, hr, List.length_pos]
    simp only [buildSigProgram, hfinal, htx, hin, Bool.false_eq_true, if_false]
    rw [concatCodes_eq env _ _ 0 [] (by omega), List.nil_append]
    exact congrArg (fun cs => some (joinWithVerify env (List.map env.code cs))) hcs
  · rw [joinWithVerify_length, List.length_map]

/-- Witness of `buildSigProgram_constraints`: scenario S2, the program is
`TTL(1000) · OP_VERIFY · Outpoint · OP_VERIFY · PayTo(A, 5, P)`. -/
theorem buildSigProgram_constraints_witness :
    buildSigProgram toyEnv scenarioS2 0
      = some (toyEnv.code (constraint.ttlConstraint 1000) ++ [toyEnv.OP_VERIFY]
          ++ toyEnv.code (constraint.outpointConstraint ⟨[9], 0⟩) ++ [toyEnv.OP_VERIFY]
          ++ toyEnv.code (constraint.payConstraint ⟨[10], 5⟩ [80] none)) :=
  (buildSigProgram_constraints toyEnv scenarioS2 0
    { Inputs := [some spendInput],
      Outputs := [{ AssetAmount := ⟨[10], 5⟩, ControlProgram := [80], ReferenceData := [] }],
      MaxTime := 1000 } spendInput rfl rfl rfl).1.trans (by decide)

/-! ## Theorems on the calls of the signer -/

theorem eligibleKeys_congr (xpubs : List String) (s1 s2 : List Bytes) :
    ∀ (ks : List KeyID) (i : Nat), (∀ j, i ≤ j → s1.getD j [] = s2.getD j []) →
      eligibleKeys xpubs s1 i ks = eligibleKeys xpubs s2 i ks := by
  intro ks
  induction ks with
  | nil => intro i _; rfl
  | cons k ks ih =>
    intro i hsame
    simp only [eligibleKeys, hsame i (Nat.le_refl i)]
    rw [ih (i + 1) (fun j hj => hsame j (by omega))]

/-- The calls made by the loop of `Sign` are the calls to the eligible keys
up to the first failure. -/
theorem signKeysCalls_eq (xpubs : List String) (signFn : SignFn) (h : Bytes) :
    ∀ (ks : List KeyID) (i : Nat) (s : List Bytes),
      signKeysCalls xpubs signFn h i ks s
        = callsUntilFailure signFn h (eligibleKeys xpubs s i ks) := by
  intro ks
  induction ks with
  | nil => intro i s; rfl
  | cons k ks ih =>
    intro i s
    by_cases h1 : 0 < (s.getD i []).length
    · have hne : ¬ ((s.getD i []).length = 0 ∧ contains xpubs k.XPub = true) :=
        fun hc => by omega
      simp only [signKeysCalls, if_pos h1, eligibleKeys, if_neg hne]
      exact ih _ _
    · by_cases h3 : (!contains xpubs k.XPub) = true
      · have hne : ¬ ((s.getD i []).length = 0 ∧ contains xpubs k.XPub = true) := by
          rintro ⟨_, hc⟩
          rw [hc] at h3
          exact absurd h3 (by decide)
        simp only [signKeysCalls, if_neg h1, if_pos h3, eligibleKeys, if_neg hne]
        exact ih _ _
      · have hc : contains xpubs k.XPub = true := by
          cases hcc : contains xpubs k.XPub with
          | true => rfl
          | false => rw [hcc] at h3; exact absurd rfl h3
        have hyes : (s.getD i []).length = 0 ∧ contains xpubs k.XPub = true := ⟨by omega, hc⟩
        simp only [signKeysCalls, if_neg h1, if_neg h3, eligibleKeys, if_pos hyes,
          callsUntilFailure]
        cases hs : signFn k.XPub k.DerivationPath h with
        | error e => rfl
        | ok sigBytes =>
          simp only
          rw [ih, eligibleKeys_congr xpubs (s.set i sigBytes) s ks (i + 1)
            (fun j hj => getD_set_ne s i j sigBytes (by omega))]

theorem callsUntilFailure_hash (signFn : SignFn) (h : Bytes) :
    ∀ (ks : List KeyID) (c : SignerCall), c ∈ callsUntilFailure signFn h ks → c.hash = h := by
  intro ks
  induction ks with
  | nil => intro c hc; simp [callsUntilFailure] at hc
  | cons k ks ih =>
    intro c hc
    simp only [callsUntilFailure] at hc
    split at hc
    · simp only [List.mem_singleton] at hc
      rw [hc]
    · simp only [List.mem_cons] at hc
      rcases hc with hc | hc
      · rw [hc]
      · exact ih c hc

/-- Every call but the last of `callsUntilFailure` is one on which the
signer succeeds. -/
theorem callsUntilFailure_ok (signFn : SignFn) (h : Bytes) :
    ∀ (ks : List KeyID) (n : Nat) (c : SignerCall),
      (callsUntilFailure signFn h ks)[n]? = some c →
      n + 1 < (callsUntilFailure signFn h ks).length →
      ∃ b, signFn c.xpub c.path c.hash = .ok b := by
  intro ks
  induction ks with
  | nil => intro n c hc; simp [callsUntilFailure] at hc
  | cons k ks ih =>
    intro n c hc hn
    cases hb : signFn k.XPub k.DerivationPath h with
    | error e =>
      simp only [callsUntilFailure, hb, List.length_singleton] at hn
      omega
    | ok b =>
      simp only [callsUntilFailure, hb, List.length_cons] at hc hn
      cases n with
      | zero =>
        simp only [List.getElem?_cons_zero, Option.some.injEq] at hc
        rw [← hc]
        exact ⟨b, hb⟩
      | succ n =>
        simp only [List.getElem?_cons_succ] at hc
        exact ih n c hc (by omega)

theorem signSlotsCalls_eq (env : Env) (sw : SignatureWitness) (xpubs : List String)
    (signFn : SignFn) :
    sw.signSlotsCalls env xpubs signFn
      = callsUntilFailure signFn (env.sha3 sw.Program) (eligibleKeys xpubs sw.Sigs 0 sw.Keys) := by
  simp only [SignatureWitness.signSlotsCalls, signKeysCalls_eq]
  rw [eligibleKeys_congr xpubs _ sw.Sigs sw.Keys 0 (fun j _ => growSigs_getD _ _ j)]

/-- The calls of `Sign` in the two ways in which it returns. -/
theorem SignCalls_cases (env : Env) (sw : SignatureWitness) (tpl : Template) (index : Int)
    (xpubs : List String) (signFn : SignFn) (sw1 : SignatureWitness) (err : Option Error)
    (hcall : sw.Sign env tpl index xpubs signFn = some (sw1, err)) :
    (err = some Error.ErrEmptyProgram ∧ sw.SignCalls env tpl index xpubs signFn = [])
      ∨ (err ≠ some Error.ErrEmptyProgram
          ∧ sw.SignCalls env tpl index xpubs signFn
            = callsUntilFailure signFn (env.sha3 sw1.Program)
                (eligibleKeys xpubs sw.Sigs 0 sw.Keys)) := by
  have hrun : ∀ sw0 : SignatureWitness, sw0.Sigs = sw.Sigs → sw0.Keys = sw.Keys →
      sw0.signSlots env xpubs signFn = (sw1, err) →
      err ≠ some Error.ErrEmptyProgram
        ∧ sw0.signSlotsCalls env xpubs signFn
          = callsUntilFailure signFn (env.sha3 sw1.Program)
              (eligibleKeys xpubs sw.Sigs 0 sw.Keys) := by
    intro sw0 hs hk hr
    have hprog : sw1.Program = sw0.Program := by rw [← signSlots_program env sw0 xpubs signFn, hr]
    have herr : err = (signKeys xpubs signFn (env.sha3 sw0.Program) 0 sw0.Keys
        (growSigs sw0.Sigs sw0.Keys.length)).2 := by
      simp only [SignatureWitness.signSlots, Prod.mk.injEq] at hr
      exact hr.2.symm
    refine ⟨?_, ?_⟩
    · rw [herr]; exact signKeys_error_shape _ _ _ _ _ _
    · rw [signSlotsCalls_eq, hprog, hs, hk]
  unfold SignatureWitness.Sign at hcall
  unfold SignatureWitness.SignCalls
  by_cases hp : sw.Program.length = 0
  · rw [if_pos hp] at hcall ⊢
    cases hbp : buildSigProgram env tpl index with
    | none => rw [hbp] at hcall; exact Option.noConfusion hcall
    | some p =>
      rw [hbp] at hcall
      by_cases hq : p.length = 0
      · simp only [if_pos hq, Option.some.injEq, Prod.mk.injEq] at hcall ⊢
        exact Or.inl ⟨hcall.2.symm, trivial⟩
      · simp only [if_neg hq, Option.some.injEq] at hcall ⊢
        exact Or.inr (hrun { sw with Program := p } rfl rfl hcall)
  · simp only [if_neg hp, Option.some.injEq] at hcall ⊢
    exact Or.inr (hrun sw rfl rfl hcall)

/-- C13: with an empty `Program`, if `buildSigProgram` returns the empty
program then `Sign` returns `ErrEmptyProgram`, makes no call of the signer
and leaves the component (so `Program` and `Sigs`) as it was; and
`buildSigProgram` does return the empty program for a non-final template
whose transaction has `MaxTime` 0 and no outputs and whose input at `index`
is an issuance without reference data. -/
theorem Sign_empty_program (env : Env) (sw : SignatureWitness) (tpl : Template) (index : Int)
    (xpubs : List String) (signFn : SignFn) (tx : TxData) (inp : TxInput)
    (hprog : sw.Program.length = 0) (hfinal : tpl.Final = false)
    (htx : tpl.Transaction = some tx) (hmax : tx.MaxTime = 0) (houts : tx.Outputs = [])
    (hin : sliceAt tx.Inputs index = some (some inp)) (hiss : inp.IsIssuance = true)
    (href : inp.ReferenceData = []) :
    buildSigProgram env tpl index = some []
      ∧ sw.Sign env tpl index xpubs signFn = some (sw, some Error.ErrEmptyProgram)
      ∧ sw.SignCalls env tpl index xpubs signFn = [] := by
  have hb : buildSigProgram env tpl index = some [] := by
    simp [buildSigProgram, hfinal, htx, hin, hmax, houts, hiss, href, payConstraints,
      concatCodes]
  have hs0 : sw.Program = [] := List.length_eq_zero.mp hprog
  refine ⟨hb, ?_, ?_⟩
  · simp only [SignatureWitness.Sign, if_pos hprog, hb, List.length_nil, if_true]
    rw [← hs0]
  · simp only [SignatureWitness.SignCalls, if_pos hprog, hb, List.length_nil, if_true]

/-- Witness of `Sign_empty_program`: scenario S5 on the sample template
without any constraint. -/
theorem Sign_empty_program_witness :
    buildSigProgram toyEnv bareTemplate 0 = some []
      ∧ unbound.Sign toyEnv bareTemplate 0 ["A"] toySigner
        = some (unbound, some Error.ErrEmptyProgram)
      ∧ unbound.SignCalls toyEnv bareTemplate 0 ["A"] toySigner = [] :=
  Sign_empty_program toyEnv unbound bareTemplate 0 ["A"] toySigner
    { Inputs := [some issuanceInput], Outputs := [], MaxTime := 0 } issuanceInput
    rfl rfl rfl rfl rfl rfl rfl rfl

/-- An eligible key sits at an index of `Keys` whose slot is empty, and
its xpub is available. -/
theorem eligibleKeys_mem (xpubs : List String) (s : List Bytes) :
    ∀ (ks : List KeyID) (i : Nat) (key : KeyID), key ∈ eligibleKeys xpubs s i ks →
      ∃ n, ks[n]? = some key ∧ (s.getD (i + n) []).length = 0
        ∧ contains xpubs key.XPub = true := by
  intro ks
  induction ks with
  | nil => intro i key hk; simp [eligibleKeys] at hk
  | cons k ks ih =>
    intro i key hk
    simp only [eligibleKeys] at hk
    split at hk
    · rename_i hyes
      simp only [List.mem_cons] at hk
      rcases hk with hk | hk
      · exact ⟨0, by rw [hk]; exact List.getElem?_cons_zero, hyes.1, by rw [hk]; exact hyes.2⟩
      · obtain ⟨n, h1, h2, h3⟩ := ih (i + 1) key hk
        exact ⟨n + 1, by simpa using h1, by rw [show i + (n + 1) = i + 1 + n by omega]; exact h2,
          h3⟩
    · obtain ⟨n, h1, h2, h3⟩ := ih (i + 1) key hk
      exact ⟨n + 1, by simpa using h1, by rw [show i + (n + 1) = i + 1 + n by omega]; exact h2,
        h3⟩

/-- When the loop of `Sign` returns no error, the signer fails on no
eligible key, so every eligible key is called. -/
theorem callsUntilFailure_all (xpubs : List String) (signFn : SignFn) (h : Bytes) :
    ∀ (ks : List KeyID) (i : Nat) (s : List Bytes),
      (signKeys xpubs signFn h i ks s).2 = none →
      callsUntilFailure signFn h (eligibleKeys xpubs s i ks)
        = (eligibleKeys xpubs s i ks).map fun key => ⟨key.XPub, key.DerivationPath, h⟩ := by
  intro ks
  induction ks with
  | nil => intro i s _; rfl
  | cons k ks ih =>
    intro i s hnone
    by_cases h1 : 0 < (s.getD i []).length
    · have hne : ¬ ((s.getD i []).length = 0 ∧ contains xpubs k.XPub = true) :=
        fun hc => by omega
      simp only [signKeys, if_pos h1] at hnone
      simp only [eligibleKeys, if_neg hne]
      exact ih _ _ hnone
    · by_cases h3 : (!contains xpubs k.XPub) = true
      · have hne : ¬ ((s.getD i []).length = 0 ∧ contains xpubs k.XPub = true) := by
          rintro ⟨_, hc⟩
          rw [hc] at h3
          exact absurd h3 (by decide)
        simp only [signKeys, if_neg h1, if_pos h3] at hnone
        simp only [eligibleKeys, if_neg hne]
        exact ih _ _ hnone
      · have hc : contains xpubs k.XPub = true := by
          cases hcc : contains xpubs k.XPub with
          | true => rfl
          | false => rw [hcc] at h3; exact absurd rfl h3
        have hyes : (s.getD i []).length = 0 ∧ contains xpubs k.XPub = true := ⟨by omega, hc⟩
        cases hs : signFn k.XPub k.DerivationPath h with
        | error e =>
          simp only [signKeys, if_neg h1, if_neg h3, hs] at hnone
          exact Option.noConfusion hnone
        | ok sigBytes =>
          simp only [signKeys, if_neg h1, if_neg h3, hs] at hnone
          have hrec := ih (i + 1) (s.set i sigBytes) hnone
          rw [eligibleKeys_congr xpubs (s.set i sigBytes) s ks (i + 1)
            (fun j hj => getD_set_ne s i j sigBytes (by omega))] at hrec
          simp only [eligibleKeys, if_pos hyes, callsUntilFailure, hs, List.map_cons, hrec]

/-- C17: the invocations of the signer made by one `Sign` are, in order,
the calls to the keys `Keys[i]` whose slot was empty and whose xpub is
available, in increasing `i`, each with the key's xpub and derivation path
and the hash of the resulting `Program`, cut after the first call that
fails: every call made has that hash, the signer succeeds on every call but
the last, every key called has an empty slot and an available xpub, a
successful `Sign` calls every such key, and a `Sign` that returns
`ErrEmptyProgram` makes no call. -/
theorem Sign_call_sequence (env : Env) (sw : SignatureWitness) (tpl : Template) (index : Int)
    (xpubs : List String) (signFn : SignFn) (sw1 : SignatureWitness) (err : Option Error)
    (hcall : sw.Sign env tpl index xpubs signFn = some (sw1, err)) :
    (err = some Error.ErrEmptyProgram → sw.SignCalls env tpl index xpubs signFn = [])
      ∧ (err ≠ some Error.ErrEmptyProgram →
          sw.SignCalls env tpl index xpubs signFn
            = callsUntilFailure signFn (env.sha3 sw1.Program)
                (eligibleKeys xpubs sw.Sigs 0 sw.Keys))
      ∧ (err = none →
          sw.SignCalls env tpl index xpubs signFn
            = (eligibleKeys xpubs sw.Sigs 0 sw.Keys).map fun key =>
                ⟨key.XPub, key.DerivationPath, env.sha3 sw1.Program⟩)
      ∧ (∀ c, c ∈ sw.SignCalls env tpl index xpubs signFn → c.hash = env.sha3 sw1.Program)
      ∧ (∀ n c, (sw.SignCalls env tpl index xpubs signFn)[n]? = some c →
          n + 1 < (sw.SignCalls env tpl index xpubs signFn).length →
          ∃ b, signFn c.xpub c.path c.hash = .ok b)
      ∧ (∀ key, key ∈ eligibleKeys xpubs sw.Sigs 0 sw.Keys →
          ∃ i, sw.Keys[i]? = some key ∧ (sw.Sigs.getD i []).length = 0
            ∧ contains xpubs key.XPub = true) := by
  have hmem : ∀ key, key ∈ eligibleKeys xpubs sw.Sigs 0 sw.Keys →
      ∃ i, sw.Keys[i]? = some key ∧ (sw.Sigs.getD i []).length = 0
        ∧ contains xpubs key.XPub = true := by
    intro key hk
    obtain ⟨n, h1, h2, h3⟩ := eligibleKeys_mem xpubs sw.Sigs sw.Keys 0 key hk
    exact ⟨n, h1, by rw [Nat.zero_add] at h2; exact h2, h3⟩
  rcases SignCalls_cases env sw tpl index xpubs signFn sw1 err hcall with
    ⟨herr, hcalls⟩ | ⟨herr, hcalls⟩
  · rw [hcalls]
    refine ⟨fun _ => rfl, fun hne => absurd herr hne, fun hn => ?_, fun c hc => ?_,
      fun n c hc => ?_, hmem⟩
    · rw [hn] at herr; exact Option.noConfusion herr
    · simp at hc
    · simp at hc
  · rw [hcalls]
    refine ⟨fun he => absurd he herr, fun _ => rfl, fun hn => ?_,
      callsUntilFailure_hash _ _ _, callsUntilFailure_ok _ _ _, hmem⟩
    rcases Sign_cases env sw tpl index xpubs signFn sw1 err hcall with
      ⟨_, _, _, he⟩ | ⟨p, _, _, _, hrun⟩
    · exact absurd he herr
    · simp only [SignatureWitness.signSlots, Prod.mk.injEq] at hrun
      obtain ⟨hsw, herr2⟩ := hrun
      have hprog : sw1.Program = p := by rw [← hsw]
      rw [hn] at herr2
      have hall := callsUntilFailure_all xpubs signFn (env.sha3 p) sw.Keys 0
        (growSigs sw.Sigs sw.Keys.length) herr2
      rw [eligibleKeys_congr xpubs _ sw.Sigs sw.Keys 0 (fun j _ => growSigs_getD _ _ j)] at hall
      rw [hprog]
      exact hall

/-- Witness of `Sign_call_sequence`: with all three xpubs available and the
signer failing on the second key, the signer is called for the first key and
for the second one, and not for the third. -/
theorem Sign_call_sequence_witness :
    middleKeyFails.Sign toyEnv spendTemplate 0 ["A", "bad", "C"] toySigner
        = some ({ middleKeyFails with Sigs := [[65, 5], [], []] },
            some (Error.annotated (Error.callback 9) (Note.computingSignature 1)))
      ∧ middleKeyFails.SignCalls toyEnv spendTemplate 0 ["A", "bad", "C"] toySigner
        = [⟨"A", [0], [5]⟩, ⟨"bad", [1], [5]⟩] :=
  ⟨by decide,
    ((Sign_call_sequence toyEnv middleKeyFails spendTemplate 0 ["A", "bad", "C"] toySigner
      { middleKeyFails with Sigs := [[65, 5], [], []] }
      (some (Error.annotated (Error.callback 9) (Note.computingSignature 1)))
      (by decide)).2.1 (by decide)).trans (by decide)⟩

/-- C18: a non-empty `Program` is frozen. `Sign` on a component with a
non-empty `Program` returns (it cannot panic) with `Program`, `Keys` and
`Quorum` as they were, every call of the signer carries the hash of that
`Program`, and the result and the calls are the same for every template and
index, final or not; and for any component, whenever `Sign` returns, `Keys`
and `Quorum` are as before the call. -/
theorem Sign_program_frozen (env : Env) (sw : SignatureWitness) (tpl : Template) (index : Int)
    (xpubs : List String) (signFn : SignFn) (hp : 0 < sw.Program.length) :
    (∃ sw1 err, sw.Sign env tpl index xpubs signFn = some (sw1, err)
        ∧ sw1.Program = sw.Program ∧ sw1.Keys = sw.Keys ∧ sw1.Quorum = sw.Quorum)
      ∧ (∀ c, c ∈ sw.SignCalls env tpl index xpubs signFn → c.hash = env.sha3 sw.Program)
      ∧ (∀ (tpl2 : Template) (index2 : Int),
          sw.Sign env tpl2 index2 xpubs signFn = sw.Sign env tpl index xpubs signFn
            ∧ sw.SignCalls env tpl2 index2 xpubs signFn
              = sw.SignCalls env tpl index xpubs signFn)
      ∧ (∀ (sw0 sw1 : SignatureWitness) (err : Option Error),
          sw0.Sign env tpl index xpubs signFn = some (sw1, err) →
          sw1.Keys = sw0.Keys ∧ sw1.Quorum = sw0.Quorum) := by
  have hne : ¬ sw.Program.length = 0 := by omega
  have hsign : ∀ (t : Template) (ix : Int),
      sw.Sign env t ix xpubs signFn = some (sw.signSlots env xpubs signFn) := by
    intro t ix
    simp only [SignatureWitness.Sign, if_neg hne]
  have hcalls : ∀ (t : Template) (ix : Int),
      sw.SignCalls env t ix xpubs signFn = sw.signSlotsCalls env xpubs signFn := by
    intro t ix
    simp only [SignatureWitness.SignCalls, if_neg hne]
  refine ⟨⟨_, _, hsign tpl index, rfl, rfl, rfl⟩, ?_, ?_, ?_⟩
  · intro c hc
    rw [hcalls, signSlotsCalls_eq] at hc
    exact callsUntilFailure_hash _ _ _ c hc
  · intro tpl2 index2
    rw [hsign, hsign, hcalls, hcalls]
    exact ⟨rfl, rfl⟩
  · intro sw0 sw1 err hcall
    rcases Sign_cases env sw0 tpl index xpubs signFn sw1 err hcall with
      ⟨_, _, hsame, _⟩ | ⟨p, _, _, _, hrun⟩
    · rw [hsame]; exact ⟨rfl, rfl⟩
    · simp only [SignatureWitness.signSlots, Prod.mk.injEq] at hrun
      rw [← hrun.1]
      exact ⟨rfl, rfl⟩

/-- Witness of `Sign_program_frozen`: the component `partlySigned` with
program `[5]` is signed over `[5]` on a final template as on any other. -/
theorem Sign_program_frozen_witness :
    partlySigned.Sign toyEnv finalTemplate 0 ["C"] toySigner
        = partlySigned.Sign toyEnv spendTemplate 0 ["C"] toySigner
      ∧ partlySigned.Sign toyEnv spendTemplate 0 ["C"] toySigner
        = some ({ partlySigned with Sigs := [[65, 5], [], [67, 5]] }, none) :=
  ⟨((Sign_program_frozen toyEnv partlySigned spendTemplate 0 ["C"] toySigner
      (by decide)).2.2.1 finalTemplate 0).1, by decide⟩

/-- C19: the field `Quorum` of the component influences neither operation.
Changing it changes nothing in the result of `Sign` but that field, and
nothing in the result of `Materialize`; the number of signatures that
`Materialize` returns is at most the quorum parsed from the input's program,
and a component with `Quorum = 0` still yields two signatures under a
2-of-3 program. -/
theorem Quorum_field_ignored (env : Env) (sw : SignatureWitness) (tpl : Template)
    (index : Int) (xpubs : List String) (signFn : SignFn) (q : Int) :
    ({ sw with Quorum := q } : SignatureWitness).Sign env tpl index xpubs signFn
        = (sw.Sign env tpl index xpubs signFn).map
            (fun r => (({ r.1 with Quorum := q } : SignatureWitness), r.2))
      ∧ ({ sw with Quorum := q } : SignatureWitness).Materialize env tpl index
        = sw.Materialize env tpl index
      ∧ (∀ tx input pubkeys quorum out, tpl.Transaction = some tx →
          sliceAt tx.Inputs index = some (some input) →
          env.ParseP2DPMultiSigProgram (governingProgram input) = .ok (pubkeys, quorum) →
          sw.Materialize env tpl index = Res.ok out →
          ∃ sigs, out = sigs ++ [sw.Program] ∧ sigs.length ≤ quorum)
      ∧ ({ twoOfThree with Quorum := 0 } : SignatureWitness).Materialize toyEnv spendTemplate 0
        = Res.ok [[65, 5], [67, 5], [5]] := by
  refine ⟨?_, rfl, ?_, by decide⟩
  · unfold SignatureWitness.Sign
    by_cases hp : sw.Program.length = 0
    · simp only [if_pos hp]
      cases hb : buildSigProgram env tpl index with
      | none => rfl
      | some p =>
        by_cases hq : p.length = 0
        · simp only [if_pos hq, Option.map_some']
        · simp only [if_neg hq, Option.map_some']
          rfl
    · simp only [if_neg hp, Option.map_some']
      rfl
  · intro tx input pubkeys quorum out htx hin hparse hout
    rw [Materialize_eq_reference env sw tpl index tx input pubkeys quorum htx hin hparse] at hout
    injection hout with hout
    refine ⟨_, hout.symm, ?_⟩
    rw [List.length_take]
    omega

/-- Witness of `Quorum_field_ignored`: the two signatures returned for
`twoOfThree` are within the parsed quorum 2. -/
theorem Quorum_field_ignored_witness :
    ∃ sigs, [[65, 5], [67, 5], [5]] = sigs ++ [twoOfThree.Program] ∧ sigs.length ≤ 2 :=
  (Quorum_field_ignored toyEnv twoOfThree spendTemplate 0 [] toySigner 0).2.2.1
    { Inputs := [some spendInput], Outputs := [], MaxTime := 0 } spendInput
    [[65], [66], [67]] 2 [[65, 5], [67, 5], [5]] rfl rfl rfl (by decide)

/-! ## Lemmas on the finalizer -/

theorem sliceAt_map {α β : Type} (f : α → β) (l : List α) (i : Int) :
    sliceAt (l.map f) i = (sliceAt l i).map f := by
  unfold sliceAt
  split
  · rfl
  · rw [List.getElem?_map]

/-- `Materialize` of a signature component reads the transaction of the
template only outside the input witnesses. -/
theorem SignatureWitness_Materialize_congr (env : Env) (sw : SignatureWitness)
    (tpl1 tpl2 : Template) (index : Int)
    (h : tpl1.Transaction.map TxData.withoutWitnesses
      = tpl2.Transaction.map TxData.withoutWitnesses) :
    sw.Materialize env tpl1 index = sw.Materialize env tpl2 index := by
  cases h1 : tpl1.Transaction with
  | none =>
    cases h2 : tpl2.Transaction with
    | none => simp only [SignatureWitness.Materialize, h1, h2]
    | some tx2 => rw [h1, h2] at h; exact Option.noConfusion h
  | some tx1 =>
    cases h2 : tpl2.Transaction with
    | none => rw [h1, h2] at h; exact Option.noConfusion h
    | some tx2 =>
      rw [h1, h2] at h
      simp only [Option.map_some', Option.some.injEq, TxData.withoutWitnesses] at h
      have hin : (sliceAt tx1.Inputs index).map (Option.map TxInput.withoutWitness)
          = (sliceAt tx2.Inputs index).map (Option.map TxInput.withoutWitness) := by
        rw [← sliceAt_map, ← sliceAt_map]
        exact congrArg (fun t : TxData => sliceAt t.Inputs index) h
      cases hs1 : sliceAt tx1.Inputs index with
      | none =>
        cases hs2 : sliceAt tx2.Inputs index with
        | none => simp only [SignatureWitness.Materialize, h1, h2, hs1, hs2]
        | some o2 => rw [hs1, hs2] at hin; exact Option.noConfusion hin
      | some o1 =>
        cases hs2 : sliceAt tx2.Inputs index with
        | none => rw [hs1, hs2] at hin; exact Option.noConfusion hin
        | some o2 =>
          rw [hs1, hs2] at hin
          simp only [Option.map_some', Option.some.injEq] at hin
          cases o1 with
          | none =>
            cases o2 with
            | none => simp only [SignatureWitness.Materialize, h1, h2, hs1, hs2]
            | some i2 => exact Option.noConfusion hin
          | some i1 =>
            cases o2 with
            | none => exact Option.noConfusion hin
            | some i2 =>
              simp only [Option.map_some', Option.some.injEq, TxInput.withoutWitness] at hin
              have hg : governingProgram i1 = governingProgram i2 := by
                have ha := congrArg TxInput.IsIssuance hin
                have hb := congrArg TxInput.IssuanceProgram hin
                have hc := congrArg TxInput.ControlProgram hin
                simp only at ha hb hc
                unfold governingProgram
                rw [ha, hb, hc]
              simp only [SignatureWitness.Materialize, h1, h2, hs1, hs2, hg]

theorem Materialize_congr (env : Env) (c : WitnessComponent) (tpl1 tpl2 : Template)
    (index : Int)
    (h : tpl1.Transaction.map TxData.withoutWitnesses
      = tpl2.Transaction.map TxData.withoutWitnesses) :
    c.Materialize env tpl1 index = c.Materialize env tpl2 index := by
  cases c with
  | data d => rfl
  | signature sw => exact SignatureWitness_Materialize_congr env sw tpl1 tpl2 index h

theorem materializeComponents_congr (env : Env) (tpl1 tpl2 : Template) (i : Nat)
    (h : tpl1.Transaction.map TxData.withoutWitnesses
      = tpl2.Transaction.map TxData.withoutWitnesses) :
    ∀ (cs : List WitnessComponent) (j : Nat) (witness : List Bytes),
      materializeComponents env tpl1 i j cs witness
        = materializeComponents env tpl2 i j cs witness := by
  intro cs
  induction cs with
  | nil => intro j witness; rfl
  | cons c cs ih =>
    intro j witness
    simp only [materializeComponents, Materialize_congr env c tpl1 tpl2 i h]
    split
    · rfl
    · rfl
    · exact ih _ _

/-- When the inner loop of the finalizer succeeds, every component
materializes and the result is the witness so far followed by the
concatenation of their items. -/
theorem materializeComponents_ok (env : Env) (tpl : Template) (i : Nat) :
    ∀ (cs : List WitnessComponent) (j : Nat) (witness out : List Bytes),
      materializeComponents env tpl i j cs witness = Res.ok out →
      out = witness ++ concatMaterialized env tpl i cs
        ∧ ∀ c, c ∈ cs → ∃ items, c.Materialize env tpl (i : Int) = Res.ok items := by
  intro cs
  induction cs with
  | nil =>
    intro j witness out h
    simp only [materializeComponents, Res.ok.injEq] at h
    exact ⟨by simp [concatMaterialized, h], fun c hc => by simp at hc⟩
  | cons c cs ih =>
    intro j witness out h
    simp only [materializeComponents] at h
    cases hc : c.Materialize env tpl (i : Int) with
    | panic => rw [hc] at h; exact Res.noConfusion h
    | err e => rw [hc] at h; exact Res.noConfusion h
    | ok items =>
      rw [hc] at h
      obtain ⟨hout, hall⟩ := ih _ _ _ h
      refine ⟨?_, ?_⟩
      · rw [hout]
        simp only [concatMaterialized, List.flatMap_cons, hc, List.append_assoc]
      · intro c1 hc1
        rcases List.mem_cons.mp hc1 with heq | hmem
        · rw [heq]; exact ⟨items, hc⟩
        · exact hall c1 hmem

/-- When the inner loop of the finalizer returns an error, it is the error
of the first component that fails, annotated with the index of that
component and the enumeration index of the instruction. -/
theorem materializeComponents_err (env : Env) (tpl : Template) (i : Nat) :
    ∀ (cs : List WitnessComponent) (j : Nat) (witness : List Bytes) (e : Error),
      materializeComponents env tpl i j cs witness = Res.err e →
      ∃ n c e0, cs[n]? = some c ∧ c.Materialize env tpl (i : Int) = Res.err e0
        ∧ e = Error.annotated e0 (Note.witnessComponent (j + n) i)
        ∧ ∀ m c1, m < n → cs[m]? = some c1 →
            ∃ items, c1.Materialize env tpl (i : Int) = Res.ok items := by
  intro cs
  induction cs with
  | nil => intro j witness e h; simp [materializeComponents] at h
  | cons c cs ih =>
    intro j witness e h
    simp only [materializeComponents] at h
    cases hc : c.Materialize env tpl (i : Int) with
    | panic => rw [hc] at h; exact Res.noConfusion h
    | err e0 =>
      rw [hc] at h
      simp only [Res.err.injEq] at h
      exact ⟨0, c, e0, List.getElem?_cons_zero, hc, h.symm,
        fun m c1 hm _ => absurd hm (Nat.not_lt_zero m)⟩
    | ok items =>
      rw [hc] at h
      obtain ⟨n, c2, e0, h1, h2, h3, h4⟩ := ih _ _ _ h
      refine ⟨n + 1, c2, e0, by simpa using h1, h2, ?_, ?_⟩
      · rw [h3, show j + 1 + n = j + (n + 1) by omega]
      · intro m c1 hm hc1
        cases m with
        | zero =>
          simp only [List.getElem?_cons_zero, Option.some.injEq] at hc1
          rw [← hc1]; exact ⟨items, hc⟩
        | succ m =>
          simp only [List.getElem?_cons_succ] at hc1
          exact h4 m c1 (by omega) hc1

theorem installWitness_outputs (msg : TxData) (pos : Nat) (w : List Bytes) :
    (installWitness msg pos w).Outputs = msg.Outputs
      ∧ (installWitness msg pos w).MaxTime = msg.MaxTime := by
  unfold installWitness
  split <;> exact ⟨rfl, rfl⟩

/-- Installing a witness at `pos` changes the input at `pos`, if there is
one, in its `InputWitness` only, and no other input. -/
theorem installWitness_inputs (msg : TxData) (pos p : Nat) (w : List Bytes) :
    (installWitness msg pos w).Inputs[p]?
      = if pos = p then (msg.Inputs[p]?).map (Option.map (TxInput.withWitness w))
        else msg.Inputs[p]? := by
  unfold installWitness
  split
  · rename_i input hin
    simp only [setInputWitness, List.getElem?_set]
    by_cases hp : pos = p
    · subst hp
      have hlt : pos < msg.Inputs.length := by
        by_contra hc
        rw [List.getElem?_eq_none (by omega)] at hin
        exact Option.noConfusion hin
      simp only [if_true, if_pos hlt, hin, Option.map_some']
      rfl
    · simp only [if_neg hp]
  · rename_i hno
    by_cases hp : pos = p
    · subst hp
      simp only [if_true]
      cases hin : msg.Inputs[pos]? with
      | none => rfl
      | some o =>
        cases o with
        | none => rfl
        | some input => exact absurd hin (hno input)
    · simp only [if_neg hp]

theorem withoutWitness_withWitness (w : List Bytes) (o : Option (Option TxInput)) :
    (o.map (Option.map (TxInput.withWitness w))).map (Option.map TxInput.withoutWitness)
      = o.map (Option.map TxInput.withoutWitness) := by
  cases o with
  | none => rfl
  | some o1 =>
    cases o1 with
    | none => rfl
    | some input => rfl

theorem installWitness_withoutWitnesses (msg : TxData) (pos : Nat) (w : List Bytes) :
    (installWitness msg pos w).withoutWitnesses = msg.withoutWitnesses := by
  have hin : (installWitness msg pos w).Inputs.map (Option.map TxInput.withoutWitness)
      = msg.Inputs.map (Option.map TxInput.withoutWitness) := by
    apply List.ext_getElem?
    intro n
    rw [List.getElem?_map, List.getElem?_map, installWitness_inputs]
    by_cases hp : pos = n
    · rw [if_pos hp, withoutWitness_withWitness]
    · rw [if_neg hp]
  unfold TxData.withoutWitnesses
  rw [hin, (installWitness_outputs msg pos w).1, (installWitness_outputs msg pos w).2]

theorem installWitness_of_present (msg : TxData) (pos : Nat) (input : TxInput)
    (w : List Bytes) (h : msg.Inputs[pos]? = some (some input)) :
    installWitness msg pos w = setInputWitness msg pos input w := by
  unfold installWitness
  rw [h]

/-- The reference installation changes nothing but input witnesses. -/
theorem referenceInstall_withoutWitnesses (env : Env) (tpl : Template) :
    ∀ (insts : List SigningInstruction) (i : Nat) (msg : TxData),
      (referenceInstall env tpl i insts msg).withoutWitnesses = msg.withoutWitnesses := by
  intro insts
  induction insts with
  | nil => intro i msg; rfl
  | cons inst rest ih =>
    intro i msg
    simp only [referenceInstall]
    rw [ih, installWitness_withoutWitnesses]

/-- The reference installation leaves alone every input whose index is not
the `Position` of one of the instructions. -/
theorem referenceInstall_frame (env : Env) (tpl : Template) (p : Nat) :
    ∀ (insts : List SigningInstruction) (i : Nat) (msg : TxData),
      (∀ inst, inst ∈ insts → inst.Position ≠ p) →
      (referenceInstall env tpl i insts msg).Inputs[p]? = msg.Inputs[p]? := by
  intro insts
  induction insts with
  | nil => intro i msg _; rfl
  | cons inst rest ih =>
    intro i msg hne
    simp only [referenceInstall]
    rw [ih _ _ (fun a ha => hne a (List.mem_cons_of_mem _ ha)), installWitness_inputs,
      if_neg (hne inst (List.mem_cons_self _ _))]

theorem withWitness_withWitness (w1 w2 : List Bytes) (o : Option (Option TxInput)) :
    (o.map (Option.map (TxInput.withWitness w1))).map (Option.map (TxInput.withWitness w2))
      = o.map (Option.map (TxInput.withWitness w2)) := by
  cases o with
  | none => rfl
  | some o1 =>
    cases o1 with
    | none => rfl
    | some input => rfl

/-- After the reference installation, the input at the `Position` of an
instruction that no later instruction shares is the input as it was, with
the concatenation for that instruction as its `InputWitness`. -/
theorem referenceInstall_last (env : Env) (tpl : Template) :
    ∀ (insts : List SigningInstruction) (i : Nat) (msg : TxData) (n : Nat)
      (inst : SigningInstruction), insts[n]? = some inst →
      (∀ m inst1, n < m → insts[m]? = some inst1 → inst1.Position ≠ inst.Position) →
      (referenceInstall env tpl i insts msg).Inputs[inst.Position]?
        = (msg.Inputs[inst.Position]?).map (Option.map (TxInput.withWitness
            (concatMaterialized env tpl (i + n) inst.WitnessComponents))) := by
  intro insts
  induction insts with
  | nil => intro i msg n inst h; simp at h
  | cons a rest ih =>
    intro i msg n inst hn hlater
    simp only [referenceInstall]
    cases n with
    | zero =>
      simp only [List.getElem?_cons_zero, Option.some.injEq] at hn
      subst hn
      rw [referenceInstall_frame env tpl a.Position rest (i + 1) _ ?_, installWitness_inputs,
        if_pos rfl]
      · rfl
      · intro b hb
        obtain ⟨m, hm⟩ := List.mem_iff_getElem?.mp hb
        exact hlater (m + 1) b (by omega) (by simpa using hm)
    | succ n =>
      simp only [List.getElem?_cons_succ] at hn
      rw [ih (i + 1) _ n inst hn
        (fun m inst1 hm h1 => hlater (m + 1) inst1 (by omega) (by simpa using h1)),
        installWitness_inputs, show i + 1 + n = i + (n + 1) by omega]
      by_cases hp : a.Position = inst.Position
      · rw [if_pos hp, withWitness_withWitness]
      · rw [if_neg hp]

/-- The outer loop of the finalizer started at index `i` completes the
first `k` instructions, which leaves the transaction that the reference
installation of these `k` instructions gives and means that all their
components materialize, and then either has passed all instructions and
returns no error, or stops at instruction `k` because the input at its
`Position` is absent or because one of its components fails. -/
theorem materializeLoop_run (env : Env) (tpl : Template) :
    ∀ (insts : List SigningInstruction) (i : Nat) (msg msg1 : TxData) (err : Option Error),
      tpl.Transaction.map TxData.withoutWitnesses = some msg.withoutWitnesses →
      materializeLoop env tpl i insts msg = some (msg1, err) →
      ∃ k, k ≤ insts.length
        ∧ msg1 = referenceInstall env tpl i (insts.take k) msg
        ∧ (∀ n inst, n < k → insts[n]? = some inst →
            (∃ input, msg.Inputs[inst.Position]? = some (some input))
              ∧ ∀ c, c ∈ inst.WitnessComponents →
                  ∃ items, c.Materialize env tpl ((i + n : Nat) : Int) = Res.ok items)
        ∧ ((err = none ∧ k = insts.length)
            ∨ ∃ inst, insts[k]? = some inst
                ∧ ((msg.Inputs[inst.Position]? = some none
                      ∧ err = some (Error.annotated Error.ErrBadTxInputIdx
                          (Note.missingTxInput (i + k) inst.Position)))
                    ∨ ∃ j c e0, inst.WitnessComponents[j]? = some c
                        ∧ c.Materialize env tpl ((i + k : Nat) : Int) = Res.err e0
                        ∧ err = some (Error.annotated e0 (Note.witnessComponent j (i + k)))
                        ∧ ∀ m c1, m < j → inst.WitnessComponents[m]? = some c1 →
                            ∃ items,
                              c1.Materialize env tpl ((i + k : Nat) : Int) = Res.ok items)) := by
  intro insts
  induction insts with
  | nil =>
    intro i msg msg1 err _ h
    simp only [materializeLoop, Option.some.injEq, Prod.mk.injEq] at h
    exact ⟨0, Nat.le_refl _, h.1.symm, fun n inst hn _ => absurd hn (Nat.not_lt_zero n),
      Or.inl ⟨h.2.symm, rfl⟩⟩
  | cons inst rest ih =>
    intro i msg msg1 err hinv h
    have hcongr : ∀ (j : Nat) (cs : List WitnessComponent) (w : List Bytes),
        materializeComponents env { tpl with Transaction := some msg } i j cs w
          = materializeComponents env tpl i j cs w := by
      intro j cs w
      apply materializeComponents_congr
      rw [hinv]; rfl
    simp only [materializeLoop, hcongr] at h
    cases hin : msg.Inputs[inst.Position]? with
    | none => rw [hin] at h; exact Option.noConfusion h
    | some o =>
      cases o with
      | none =>
        rw [hin] at h
        simp only [Option.some.injEq, Prod.mk.injEq] at h
        refine ⟨0, Nat.zero_le _, h.1.symm, fun n a hn _ => absurd hn (Nat.not_lt_zero n),
          Or.inr ⟨inst, List.getElem?_cons_zero, Or.inl ⟨hin, h.2.symm⟩⟩⟩
      | some input =>
        rw [hin] at h
        simp only at h
        cases hc : materializeComponents env tpl i 0 inst.WitnessComponents [] with
        | panic => rw [hc] at h; exact Option.noConfusion h
        | err e =>
          rw [hc] at h
          simp only [Option.some.injEq, Prod.mk.injEq] at h
          obtain ⟨j, c, e0, h1, h2, h3, h4⟩ :=
            materializeComponents_err env tpl i _ _ _ _ hc
          rw [Nat.zero_add] at h3
          refine ⟨0, Nat.zero_le _, h.1.symm, fun n a hn _ => absurd hn (Nat.not_lt_zero n),
            Or.inr ⟨inst, List.getElem?_cons_zero, Or.inr ⟨j, c, e0, h1, h2, ?_, h4⟩⟩⟩
          rw [← h.2, h3]; rfl
        | ok witness =>
          rw [hc] at h
          simp only at h
          obtain ⟨hw, hall⟩ := materializeComponents_ok env tpl i _ _ _ _ hc
          rw [List.nil_append] at hw
          have hstep : setInputWitness msg inst.Position input witness
              = installWitness msg inst.Position
                  (concatMaterialized env tpl i inst.WitnessComponents) := by
            rw [installWitness_of_present msg inst.Position input _ hin, hw]
          rw [hstep] at h
          obtain ⟨k, hk, hmsg, hdone, hend⟩ := ih (i + 1) _ msg1 err
            (by rw [installWitness_withoutWitnesses]; exact hinv) h
          refine ⟨k + 1, by simp only [List.length_cons]; omega, ?_, ?_, ?_⟩
          · rw [List.take_succ_cons]
            simp only [referenceInstall]
            exact hmsg
          · intro n a hn ha
            cases n with
            | zero =>
              simp only [List.getElem?_cons_zero, Option.some.injEq] at ha
              subst ha
              exact ⟨⟨input, hin⟩, hall⟩
            | succ n =>
              simp only [List.getElem?_cons_succ] at ha
              obtain ⟨⟨inp1, hinp1⟩, hcs⟩ := hdone n a (by omega) ha
              rw [installWitness_inputs] at hinp1
              refine ⟨?_, ?_⟩
              · by_cases hp : inst.Position = a.Position
                · rw [← hp, hin]; exact ⟨input, rfl⟩
                · rw [if_neg hp] at hinp1; exact ⟨inp1, hinp1⟩
              · rw [show i + (n + 1) = i + 1 + n by omega]; exact hcs
          · rcases hend with ⟨he, hk2⟩ | ⟨a, ha, hcase⟩
            · exact Or.inl ⟨he, by simp only [List.length_cons]; omega⟩
            · refine Or.inr ⟨a, by simpa using ha, ?_⟩
              rw [show i + (k + 1) = i + 1 + k by omega]
              rcases hcase with ⟨habs, he⟩ | hcomp
              · left
                refine ⟨?_, he⟩
                rw [installWitness_inputs] at habs
                by_cases hp : inst.Position = a.Position
                · rw [if_pos hp, ← hp, hin] at habs
                  simp at habs
                · rw [if_neg hp] at habs; exact habs
              · exact Or.inr hcomp

theorem getElem?_take_some {α : Type} (l : List α) (k n : Nat) (a : α)
    (h : (l.take k)[n]? = some a) : n < k ∧ l[n]? = some a := by
  rw [List.getElem?_take] at h
  by_cases hn : n < k
  · rw [if_pos hn] at h; exact ⟨hn, h⟩
  · rw [if_neg hn] at h; exact Option.noConfusion h

/-- The three ways in which `materializeWitnesses` returns: from the check
of the transaction, from the check of the instruction count, or from the
loop over the instructions. -/
theorem materializeWitnesses_cases (env : Env) (tpl tpl1 : Template) (err : Option Error)
    (hcall : materializeWitnesses env tpl = some (tpl1, err)) :
    (tpl.Transaction = none ∧ tpl1 = tpl
        ∧ err = some (Error.annotated Error.ErrMissingRawTx Note.stack))
      ∨ ∃ msg, tpl.Transaction = some msg
          ∧ ((msg.Inputs.length < tpl.SigningInstructions.length ∧ tpl1 = tpl
                ∧ err = some (Error.annotated Error.ErrBadInstructionCount Note.stack))
              ∨ ∃ msg1, tpl1 = { tpl with Transaction := some msg1 }
                  ∧ materializeLoop env tpl 0 tpl.SigningInstructions msg
                    = some (msg1, err)) := by
  unfold materializeWitnesses at hcall
  cases htx : tpl.Transaction with
  | none =>
    rw [htx] at hcall
    simp only [Option.some.injEq, Prod.mk.injEq] at hcall
    exact Or.inl ⟨rfl, hcall.1.symm, hcall.2.symm⟩
  | some msg =>
    rw [htx] at hcall
    simp only at hcall
    right
    refine ⟨msg, rfl, ?_⟩
    by_cases hlen : msg.Inputs.length < tpl.SigningInstructions.length
    · rw [if_pos hlen] at hcall
      simp only [Option.some.injEq, Prod.mk.injEq] at hcall
      exact Or.inl ⟨hlen, hcall.1.symm, hcall.2.symm⟩
    · rw [if_neg hlen] at hcall
      cases hloop : materializeLoop env tpl 0 tpl.SigningInstructions msg with
      | none => rw [hloop] at hcall; exact Option.noConfusion hcall
      | some r =>
        obtain ⟨msg1, e⟩ := r
        rw [hloop] at hcall
        simp only [Option.some.injEq, Prod.mk.injEq] at hcall
        exact Or.inr ⟨msg1, hcall.1.symm, by rw [hcall.2]⟩

/-! ## Theorems on `materializeWitnesses`: the installed witnesses -/

/-- C16: when `materializeWitnesses` succeeds, the transaction is the one in
which, for every instruction in order, the concatenation of what its
components materialize to for its enumeration index `i` has been installed
as the `InputWitness` of the input at its `Position`: every component of
every instruction materializes for the index `i`, and the input at the
`Position` of an instruction (one that no later instruction names too)
holds exactly that concatenation. When it returns an error, the error is
that of one of the two checks, or `ErrBadTxInputIdx` annotated with `i` and
the `Position`, or the error of the first failing component of the first
failing instruction `i`, annotated with the component index and `i`. -/
theorem materializeWitnesses_installs (env : Env) (tpl tpl1 : Template) (err : Option Error)
    (hcall : materializeWitnesses env tpl = some (tpl1, err)) :
    (err = none →
        ∃ msg, tpl.Transaction = some msg
          ∧ tpl1 = { tpl with
                Transaction := some (referenceInstall env tpl 0 tpl.SigningInstructions msg) }
          ∧ ∀ i inst, tpl.SigningInstructions[i]? = some inst →
              (∀ c, c ∈ inst.WitnessComponents →
                  ∃ items, c.Materialize env tpl ((i : Nat) : Int) = Res.ok items)
                ∧ ((∀ m inst1, i < m → tpl.SigningInstructions[m]? = some inst1 →
                      inst1.Position ≠ inst.Position) →
                    ∃ input, msg.Inputs[inst.Position]? = some (some input)
                      ∧ (referenceInstall env tpl 0 tpl.SigningInstructions
                          msg).Inputs[inst.Position]?
                        = some (some (TxInput.withWitness
                            (concatMaterialized env tpl i inst.WitnessComponents) input))))
      ∧ (∀ e, err = some e →
          e = Error.annotated Error.ErrMissingRawTx Note.stack
            ∨ e = Error.annotated Error.ErrBadInstructionCount Note.stack
            ∨ (∃ i inst, tpl.SigningInstructions[i]? = some inst
                ∧ e = Error.annotated Error.ErrBadTxInputIdx
                    (Note.missingTxInput i inst.Position))
            ∨ ∃ i inst j c e0, tpl.SigningInstructions[i]? = some inst
                ∧ inst.WitnessComponents[j]? = some c
                ∧ c.Materialize env tpl ((i : Nat) : Int) = Res.err e0
                ∧ e = Error.annotated e0 (Note.witnessComponent j i)
                ∧ (∀ m c1, m < j → inst.WitnessComponents[m]? = some c1 →
                    ∃ items, c1.Materialize env tpl ((i : Nat) : Int) = Res.ok items)
                ∧ ∀ n inst0, n < i → tpl.SigningInstructions[n]? = some inst0 →
                    ∀ c1, c1 ∈ inst0.WitnessComponents →
                      ∃ items, c1.Materialize env tpl ((n : Nat) : Int) = Res.ok items) := by
  rcases materializeWitnesses_cases env tpl tpl1 err hcall with
    ⟨_, _, he⟩ | ⟨msg, htx, ⟨_, _, he⟩ | ⟨msg1, htpl, hloop⟩⟩
  · refine ⟨fun hn => ?_, fun e hs => ?_⟩
    · rw [hn] at he; exact Option.noConfusion he
    · rw [hs] at he; exact Or.inl (Option.some.inj he)
  · refine ⟨fun hn => ?_, fun e hs => ?_⟩
    · rw [hn] at he; exact Option.noConfusion he
    · rw [hs] at he; exact Or.inr (Or.inl (Option.some.inj he))
  · obtain ⟨k, hk, hmsg, hdone, hend⟩ := materializeLoop_run env tpl tpl.SigningInstructions 0
      msg msg1 err (by rw [htx]; rfl) hloop
    refine ⟨fun hn => ?_, fun e hs => ?_⟩
    · have hkl : k = tpl.SigningInstructions.length := by
        rcases hend with ⟨_, hkl⟩ | ⟨inst, _, ⟨_, he⟩ | ⟨j, c, e0, _, _, he, _⟩⟩
        · exact hkl
        · rw [hn] at he; exact Option.noConfusion he
        · rw [hn] at he; exact Option.noConfusion he
      rw [hkl, List.take_length] at hmsg
      refine ⟨msg, htx, by rw [htpl, hmsg], fun i inst hi => ?_⟩
      have hik : i < k := by
        rw [hkl]
        by_contra hc
        rw [List.getElem?_eq_none (by omega)] at hi
        exact Option.noConfusion hi
      obtain ⟨⟨input, hinput⟩, hcs⟩ := hdone i inst hik hi
      rw [Nat.zero_add] at hcs
      refine ⟨hcs, fun hlater => ⟨input, hinput, ?_⟩⟩
      rw [referenceInstall_last env tpl tpl.SigningInstructions 0 msg i inst hi hlater, hinput,
        Nat.zero_add]
      rfl
    · right; right
      rcases hend with ⟨hn, _⟩ | ⟨inst, hinst, ⟨_, he⟩ | ⟨j, c, e0, hc, hm, he, hfirst⟩⟩
      · rw [hs] at hn; exact Option.noConfusion hn
      · left
        rw [hs, Nat.zero_add] at he
        exact ⟨k, inst, hinst, Option.some.inj he⟩
      · right
        rw [hs, Nat.zero_add] at he
        rw [Nat.zero_add] at hm hfirst
        refine ⟨k, inst, j, c, e0, hinst, hc, hm, Option.some.inj he, hfirst, ?_⟩
        intro n inst0 hn hinst0
        have := (hdone n inst0 hn hinst0).2
        rw [Nat.zero_add] at this
        exact this

/-- Witness of `materializeWitnesses_installs`: on `crossedTemplate` the
finalizer succeeds; instruction 0 materializes for index 0 and writes input
1, instruction 1 writes input 0. -/
theorem materializeWitnesses_installs_witness :
    materializeWitnesses toyEnv crossedTemplate = some (crossedDone, none)
      ∧ ∃ msg, crossedTemplate.Transaction = some msg
          ∧ crossedDone = { crossedTemplate with
                Transaction := some (referenceInstall toyEnv crossedTemplate 0
                  crossedTemplate.SigningInstructions msg) } :=
  ⟨by decide,
    match (materializeWitnesses_installs toyEnv crossedTemplate crossedDone none
      (by decide)).1 rfl with
    | ⟨msg, h1, h2, _⟩ => ⟨msg, h1, h2⟩⟩

/-- C20, as stated, fails: on `repeatedPositionTemplate` the finalizer
fails at instruction 1, whose `Position` is 0, and the input at position 0
no longer has the empty witness it had: it carries the witness that
instruction 0 installed. -/
theorem materializeWitnesses_frame_counterexample :
    materializeWitnesses toyEnv repeatedPositionTemplate
        = some (repeatedPositionFailed,
            some (Error.annotated
              (Error.annotated (Error.parser 1) Note.parsingInputProgramScript)
              (Note.witnessComponent 0 1)))
      ∧ repeatedPositionTemplate.SigningInstructions.map SigningInstruction.Position = [0, 0]
      ∧ (repeatedPositionTemplate.Transaction.bind fun tx => tx.Inputs[0]?)
        = some (some spendInput)
      ∧ (repeatedPositionFailed.Transaction.bind fun tx => tx.Inputs[0]?)
        = some (some { spendInput with InputWitness := [[1]] })
      ∧ spendInput.InputWitness = [] := by
  decide

/-- C20, amended: `materializeWitnesses` changes nothing in the template
but input witnesses of the transaction. It completes the instructions
`0..k-1` (all of them on success, those before the failing instruction `k`
on failure, none when the instruction count is wrong) and leaves the
transaction obtained by installing their witnesses in order, without
rollback: every input whose index is not the `Position` of one of the
instructions `0..k-1` is as it was, and the input at the `Position` of a
completed instruction carries the witness of the last completed instruction
that names this `Position`. -/
theorem materializeWitnesses_frame (env : Env) (tpl tpl1 : Template) (err : Option Error)
    (hcall : materializeWitnesses env tpl = some (tpl1, err)) :
    tpl1.SigningInstructions = tpl.SigningInstructions
      ∧ tpl1.Final = tpl.Final
      ∧ tpl1.Transaction.map TxData.withoutWitnesses
        = tpl.Transaction.map TxData.withoutWitnesses
      ∧ ∀ msg, tpl.Transaction = some msg →
          ∃ msg1 k, tpl1.Transaction = some msg1
            ∧ k ≤ tpl.SigningInstructions.length
            ∧ msg1 = referenceInstall env tpl 0 (tpl.SigningInstructions.take k) msg
            ∧ (err = none → k = tpl.SigningInstructions.length)
            ∧ (∀ e, err = some e →
                (k = 0 ∧ e = Error.annotated Error.ErrBadInstructionCount Note.stack)
                  ∨ ∃ inst, tpl.SigningInstructions[k]? = some inst
                      ∧ (e = Error.annotated Error.ErrBadTxInputIdx
                            (Note.missingTxInput k inst.Position)
                          ∨ ∃ e0 j, e = Error.annotated e0 (Note.witnessComponent j k)))
            ∧ (∀ p, (∀ n inst, n < k → tpl.SigningInstructions[n]? = some inst →
                  inst.Position ≠ p) →
                msg1.Inputs[p]? = msg.Inputs[p]?)
            ∧ (∀ n inst, n < k → tpl.SigningInstructions[n]? = some inst →
                (∀ m inst1, n < m → m < k → tpl.SigningInstructions[m]? = some inst1 →
                  inst1.Position ≠ inst.Position) →
                ∃ input, msg.Inputs[inst.Position]? = some (some input)
                  ∧ msg1.Inputs[inst.Position]?
                    = some (some (TxInput.withWitness
                        (concatMaterialized env tpl n inst.WitnessComponents) input))) := by
  rcases materializeWitnesses_cases env tpl tpl1 err hcall with
    ⟨htx, htpl, _⟩ | ⟨msg, htx, ⟨_, htpl, he⟩ | ⟨msg1, htpl, hloop⟩⟩
  · rw [htpl]
    refine ⟨rfl, rfl, rfl, fun msg hm => ?_⟩
    rw [htx] at hm; exact Option.noConfusion hm
  · rw [htpl]
    refine ⟨rfl, rfl, rfl, fun msg0 hm => ?_⟩
    rw [htx] at hm
    have hm0 : msg = msg0 := Option.some.inj hm
    subst hm0
    refine ⟨msg, 0, htx, Nat.zero_le _, rfl, fun hn => ?_, fun e hs => ?_, fun p _ => rfl,
      fun n inst hn => absurd hn (Nat.not_lt_zero n)⟩
    · rw [hn] at he; exact Option.noConfusion he
    · rw [hs] at he; exact Or.inl ⟨rfl, Option.some.inj he⟩
  · obtain ⟨k, hk, hmsg, hdone, hend⟩ := materializeLoop_run env tpl tpl.SigningInstructions 0
      msg msg1 err (by rw [htx]; rfl) hloop
    rw [htpl]
    refine ⟨rfl, rfl, ?_, fun msg0 hm => ?_⟩
    · rw [htx, hmsg]
      simp only [Option.map_some', referenceInstall_withoutWitnesses]
    · rw [htx] at hm
      have hm0 : msg = msg0 := Option.some.inj hm
      subst hm0
      refine ⟨msg1, k, rfl, hk, hmsg, fun hn => ?_, fun e hs => ?_, fun p hp => ?_,
        fun n inst hn hinst hlater => ?_⟩
      · rcases hend with ⟨_, hkl⟩ | ⟨inst, _, ⟨_, he⟩ | ⟨j, c, e0, _, _, he, _⟩⟩
        · exact hkl
        · rw [hn] at he; exact Option.noConfusion he
        · rw [hn] at he; exact Option.noConfusion he
      · right
        rcases hend with ⟨hn, _⟩ | ⟨inst, hinst, ⟨_, he⟩ | ⟨j, c, e0, _, _, he, _⟩⟩
        · rw [hs] at hn; exact Option.noConfusion hn
        · rw [hs, Nat.zero_add] at he
          exact ⟨inst, hinst, Or.inl (Option.some.inj he)⟩
        · rw [hs, Nat.zero_add] at he
          exact ⟨inst, hinst, Or.inr ⟨e0, j, Option.some.inj he⟩⟩
      · rw [hmsg]
        apply referenceInstall_frame
        intro inst hmem
        obtain ⟨n, hn⟩ := List.mem_iff_getElem?.mp hmem
        obtain ⟨hlt, hget⟩ := getElem?_take_some _ _ _ _ hn
        exact hp n inst hlt hget
      · obtain ⟨⟨input, hinput⟩, _⟩ := hdone n inst hn hinst
        refine ⟨input, hinput, ?_⟩
        rw [hmsg, referenceInstall_last env tpl (tpl.SigningInstructions.take k) 0 msg n inst
          (by rw [List.getElem?_take_of_lt hn]; exact hinst)
          (fun m inst1 hm h1 => by
            obtain ⟨hlt, hget⟩ := getElem?_take_some _ _ _ _ h1
            exact hlater m inst1 hm hlt hget),
          hinput, Nat.zero_add]
        rfl

/-- Witness of `materializeWitnesses_frame`: on `repeatedPositionTemplate`
the finalizer fails after completing an initial segment of the
instructions, and the transaction it leaves is the reference installation
of that segment. -/
theorem materializeWitnesses_frame_witness :
    materializeWitnesses toyEnv repeatedPositionTemplate
        = some (repeatedPositionFailed,
            some (Error.annotated
              (Error.annotated (Error.parser 1) Note.parsingInputProgramScript)
              (Note.witnessComponent 0 1)))
      ∧ ∃ msg1 k, repeatedPositionFailed.Transaction = some msg1
          ∧ k ≤ repeatedPositionTemplate.SigningInstructions.length
          ∧ msg1 = referenceInstall toyEnv repeatedPositionTemplate 0
              (repeatedPositionTemplate.SigningInstructions.take k)
              { Inputs := [some spendInput, some issuanceInput], Outputs := [], MaxTime := 0 } :=
  ⟨by decide,
    match (materializeWitnesses_frame toyEnv repeatedPositionTemplate repeatedPositionFailed
      (some (Error.annotated (Error.annotated (Error.parser 1) Note.parsingInputProgramScript)
        (Note.witnessComponent 0 1))) (by decide)).2.2.2
      { Inputs := [some spendInput, some issuanceInput], Outputs := [], MaxTime := 0 } rfl with
    | ⟨msg1, k, h1, h2, h3, _⟩ => ⟨msg1, k, h1, h2, h3⟩⟩

end Txbuilder
